import Mathlib

/-!
Verification of the Point Transformer core
(`ml3d/torch/models/point_transformer.py`).

The tensor operations of the source are embedded shallowly:

* a `(n, 3)` point tensor becomes `List Q3` with `Q3 := ℚ × ℚ × ℚ`;
* a `(n, c)` feature tensor becomes `List (List ℚ)` (row major);
* a `(n, k, c)` grouped tensor becomes `List (List (List ℚ))`;
* a row-splits tensor becomes `List ℕ`;
* fallible code (Python `assert`, `AttributeError`) returns `Option`.

`nn.Linear` is a weight matrix and bias vector acting on the last
dimension.  `nn.BatchNorm1d` is embedded in evaluation mode as the
per-channel affine map `v ↦ scale * v + shift` (the running statistics
and the square root are folded into `scale`/`shift`, which are module
parameters).  `nn.Softmax`'s exponential is irrational, so the
exponential map is a parameter of the embedded module; every property
proved below holds for an arbitrary exponential.  The open3d
`NearestNeighborSearch.knn_search` primitive (an external library) is
embedded as sorting a cloud's points by squared distance to the query
and taking the first `k`, which returns the `min k m` nearest points of
an `m`-point cloud together with their squared distances.
-/

namespace PT

/-- A 3-d point with rational coordinates. -/
abbrev Q3 : Type := ℚ × ℚ × ℚ

/-- Squared Euclidean distance between two points. -/
def sqDist (a b : Q3) : ℚ :=
  (a.1 - b.1) ^ 2 + (a.2.1 - b.2.1) ^ 2 + (a.2.2 - b.2.2) ^ 2

/-- Componentwise difference of two points. -/
def sub3 (a b : Q3) : Q3 := (a.1 - b.1, a.2.1 - b.2.1, a.2.2 - b.2.2)

/-- The slice `l[s:e]` of a Python buffer. -/
def slice {α : Type} (l : List α) (s e : ℕ) : List α := (l.drop s).take (e - s)

/-- `rs[-1]`: the last entry of a row-splits buffer (`0` for an empty one). -/
def lastD (l : List ℕ) : ℕ := l.getD (l.length - 1) 0

/-- Validity of a row-splits buffer for a buffer of `n` rows: at least two
entries (one cloud), first entry `0`, monotonically non-decreasing, last
entry `n`.  This is the `RowSplits` contract of the data model. -/
def validSplits (rs : List ℕ) (n : ℕ) : Prop :=
  2 ≤ rs.length ∧ rs.getD 0 0 = 0 ∧
    (∀ i ∈ List.range (rs.length - 1), rs.getD i 0 ≤ rs.getD (i + 1) 0) ∧
    lastD rs = n

instance (rs : List ℕ) (n : ℕ) : Decidable (validSplits rs n) := by
  unfold validSplits; infer_instance

/-- A PXO triple: points, features, row splits. -/
structure Pxo where
  point : List Q3
  feat : List (List ℚ)
  rs : List ℕ

/-- The PXO invariant of the data model:
`point.length == feature.length == RowSplits[-1]`, with valid splits. -/
def pxoValid (p : Pxo) : Prop :=
  p.point.length = p.feat.length ∧ validSplits p.rs p.point.length

instance (p : Pxo) : Decidable (pxoValid p) := by
  unfold pxoValid; infer_instance

/-! ### Foundational list lemmas -/

theorem getD_map {α β : Type} (f : α → β) (l : List α) (i : ℕ) (hi : i < l.length)
    (d : α) (d' : β) : (l.map f).getD i d' = f (l.getD i d) := by
  induction l generalizing i with
  | nil => simp at hi
  | cons a t ih =>
    cases i with
    | zero => simp
    | succ j => simpa using ih j (by simpa using hi)

theorem getD_zipWith {α β γ : Type} (f : α → β → γ) (A : List α) (B : List β)
    (i : ℕ) (hA : i < A.length) (hB : i < B.length) (dA : α) (dB : β) (d : γ) :
    (List.zipWith f A B).getD i d = f (A.getD i dA) (B.getD i dB) := by
  induction A generalizing B i with
  | nil => simp at hA
  | cons a tA ih =>
    cases B with
    | nil => simp at hB
    | cons b tB =>
      cases i with
      | zero => simp
      | succ j =>
        simpa using ih tB j (by simpa using hA) (by simpa using hB)

theorem getD_range_map {β : Type} (f : ℕ → β) (n i : ℕ) (hi : i < n) (d : β) :
    ((List.range n).map f).getD i d = f i := by
  rw [getD_map f _ i (by simpa using hi) 0]
  congr 1
  rw [List.getD_eq_getElem _ _ (by simpa using hi)]
  simp

theorem getD_mem' {α : Type} (l : List α) (i : ℕ) (hi : i < l.length) (d : α) :
    l.getD i d ∈ l := by
  rw [List.getD_eq_getElem _ _ hi]
  exact List.getElem_mem hi

theorem getD_replicate' {α : Type} (n i : ℕ) (hi : i < n) (a d : α) :
    (List.replicate n a).getD i d = a := by
  rw [List.getD_eq_getElem _ _ (by simpa using hi)]
  simp

theorem zipWith_replicate_zero_add (c : ℕ) (r : List ℚ) (hr : r.length = c) :
    List.zipWith (· + ·) (List.replicate c (0 : ℚ)) r = r := by
  induction r generalizing c with
  | nil => simp
  | cons a t ih =>
    cases c with
    | zero => simp at hr
    | succ m =>
      have h := ih m (by simpa using hr)
      simp [List.replicate_succ, h]

/-- Indexing into a flattened list of blocks: position
(sum of the lengths of the first `i` blocks) + `j` lands at entry `j` of
block `i`. -/
theorem getD_flatten {α : Type} (L : List (List α)) (i j : ℕ) (d : α)
    (hj : j < (L.getD i []).length) :
    (L.flatten).getD ((((L.take i).map List.length).sum) + j) d
      = (L.getD i []).getD j d := by
  induction L generalizing i with
  | nil => simp at hj
  | cons b rest ih =>
    cases i with
    | zero =>
      simp only [List.take_zero, List.map_nil, List.sum_nil, Nat.zero_add,
        List.getD_cons_zero] at *
      exact List.getD_append _ _ _ _ hj
    | succ k =>
      simp only [List.getD_cons_succ] at hj ⊢
      have h1 : ((List.take (k + 1) (b :: rest)).map List.length).sum
          = b.length + ((rest.take k).map List.length).sum := by
        simp [List.take_succ_cons]
      rw [h1, Nat.add_assoc, List.flatten_cons,
        List.getD_append_right _ _ _ _ (Nat.le_add_right _ _)]
      rw [Nat.add_sub_cancel_left]
      exact ih k hj

theorem sum_range_sub_telescope (g : List ℕ) (h0 : g.getD 0 0 = 0)
    (hmono : ∀ i ∈ List.range (g.length - 1), g.getD i 0 ≤ g.getD (i + 1) 0) :
    ∀ j < g.length,
      (((List.range j).map (fun t => g.getD (t + 1) 0 - g.getD t 0)).sum)
        = g.getD j 0 := by
  intro j hj
  induction j with
  | zero => simpa using h0.symm
  | succ k ih =>
    rw [List.range_succ, List.map_append, List.sum_append]
    have hk : k < g.length := Nat.lt_of_succ_lt hj
    rw [ih hk]
    have hle : g.getD k 0 ≤ g.getD (k + 1) 0 := by
      refine hmono k ?_
      simp only [List.mem_range]
      omega
    simp only [List.map_cons, List.map_nil, List.sum_cons, List.sum_nil]
    omega

/-- For valid splits, entries are monotone along any pair of positions. -/
theorem splits_le {rs : List ℕ} {n : ℕ} (h : validSplits rs n) :
    ∀ i j, i ≤ j → j < rs.length → rs.getD i 0 ≤ rs.getD j 0 := by
  intro i j
  induction j with
  | zero =>
    intro hij _
    have hi0 : i = 0 := Nat.le_zero.mp hij
    subst hi0; exact Nat.le_refl _
  | succ k ih =>
    intro hij hj
    rcases Nat.lt_or_ge i (k + 1) with hlt | hge
    · have h1 : rs.getD i 0 ≤ rs.getD k 0 := ih (by omega) (by omega)
      have h2 : rs.getD k 0 ≤ rs.getD (k + 1) 0 := by
        refine h.2.2.1 k ?_
        simp only [List.mem_range]
        omega
      omega
    · have hik : i = k + 1 := by omega
      subst hik; exact Nat.le_refl _

/-- For valid splits, every entry is at most `n`. -/
theorem splits_le_n {rs : List ℕ} {n : ℕ} (h : validSplits rs n) :
    ∀ i < rs.length, rs.getD i 0 ≤ n := by
  intro i hi
  have hlast : rs.getD (rs.length - 1) 0 = n := h.2.2.2
  have := splits_le h i (rs.length - 1) (by omega) (by omega)
  omega

/-! ### NeighborSearch (`knn_batch`) -/

/-- Modelled from the spec: the open3d `NearestNeighborSearch.knn_index` /
`knn_search` primitive (an external library, not part of this repository).
For a single cloud it returns the `min k m` nearest of the cloud's `m`
points to the query, as (cloud-local index, squared distance) pairs in
order of increasing squared distance. -/
def knnOne (cloud : List Q3) (q : Q3) (k : ℕ) : List (ℕ × ℚ) :=
  (((List.range cloud.length).map
      (fun j => (j, sqDist (cloud.getD j (0, 0, 0)) q))).mergeSort
    (fun a b => decide (a.2 ≤ b.2))).take k

/-- One iteration of the batch loop of `knn_batch`: the search for the
queries of cloud `i` against the source points of cloud `i`, with the
cloud-local indices shifted by `points_row_splits[i]` (the `idx +=
points_row_splits[i]` line). -/
def knnBlock (points queries : List Q3) (k : ℕ) (prs qrs : List ℕ) (i : ℕ) :
    List (List (ℕ × ℚ)) :=
  (slice queries (qrs.getD i 0) (qrs.getD (i + 1) 0)).map
    (fun q =>
      (knnOne (slice points (prs.getD i 0) (prs.getD (i + 1) 0)) q k).map
        (fun pr => (pr.1 + prs.getD i 0, pr.2)))

/-- The batch loop of `knn_batch`: per-cloud searches concatenated along
the query dimension (`torch.cat(idxs, 0)` / `torch.cat(dists, 0)`). -/
def knnCore (points queries : List Q3) (k : ℕ) (prs qrs : List ℕ) :
    List (List (ℕ × ℚ)) :=
  ((List.range (prs.length - 1)).map (knnBlock points queries k prs qrs)).flatten

/-- `knn_batch` (point_transformer.py:560).  The leading
`assert points_row_splits.shape[0] == queries_row_splits.shape[0]` is the
`none` branch; it fires before any neighbor computation.  On success the
global neighbor indices and their squared distances are returned
(`return_distances=False` merely drops the second component). -/
def knn_batch (points queries : List Q3) (k : ℕ) (prs qrs : List ℕ) :
    Option (List (List ℕ) × List (List ℚ)) :=
  if prs.length = qrs.length then
    let core := knnCore points queries k prs qrs
    some (core.map (List.map Prod.fst), core.map (List.map Prod.snd))
  else none

/-! ### Slice and `knnOne` lemmas -/

theorem length_slice {α : Type} (l : List α) (s e : ℕ) (hse : s ≤ e)
    (he : e ≤ l.length) : (slice l s e).length = e - s := by
  simp only [slice, List.length_take, List.length_drop]
  omega

theorem getD_slice {α : Type} (l : List α) (s e j : ℕ) (d : α) (hj : j < e - s)
    (he : e ≤ l.length) : (slice l s e).getD j d = l.getD (s + j) d := by
  have hsl : j < (slice l s e).length := by
    simp only [slice, List.length_take, List.length_drop]
    omega
  have hl : s + j < l.length := by omega
  rw [List.getD_eq_getElem _ _ hsl, List.getD_eq_getElem _ _ hl]
  simp [slice]

theorem knnOne_mem {cloud : List Q3} {q : Q3} {k : ℕ} {pr : ℕ × ℚ}
    (h : pr ∈ knnOne cloud q k) : pr.1 < cloud.length ∧ 0 ≤ pr.2 := by
  have h1 : pr ∈ (List.range cloud.length).map
      (fun j => (j, sqDist (cloud.getD j (0, 0, 0)) q)) := by
    have h2 := List.mem_of_mem_take h
    exact (List.mergeSort_perm _ _).mem_iff.mp h2
  rcases List.mem_map.mp h1 with ⟨j, hj, rfl⟩
  refine ⟨by simpa using List.mem_range.mp hj, ?_⟩
  have hd : (0 : ℚ) ≤ sqDist (cloud.getD j (0, 0, 0)) q := by
    unfold sqDist; positivity
  simpa using hd

theorem knnOne_length (cloud : List Q3) (q : Q3) (k : ℕ) :
    (knnOne cloud q k).length = min k cloud.length := by
  simp [knnOne]

/-! ### `knn_batch` structure lemmas -/

theorem knnBlock_length (points queries : List Q3) (k : ℕ) (prs qrs : List ℕ)
    (i : ℕ) (h1 : qrs.getD i 0 ≤ qrs.getD (i + 1) 0)
    (h2 : qrs.getD (i + 1) 0 ≤ queries.length) :
    (knnBlock points queries k prs qrs i).length
      = qrs.getD (i + 1) 0 - qrs.getD i 0 := by
  simp only [knnBlock, List.length_map]
  exact length_slice _ _ _ h1 h2

theorem knnCore_length (points queries : List Q3) (k : ℕ) (prs qrs : List ℕ)
    (hb : prs.length = qrs.length) (hq : validSplits qrs queries.length) :
    (knnCore points queries k prs qrs).length = queries.length := by
  unfold knnCore
  rw [List.length_flatten, List.map_map]
  have hcong : (List.range (prs.length - 1)).map
        (List.length ∘ knnBlock points queries k prs qrs)
      = (List.range (qrs.length - 1)).map
        (fun t => qrs.getD (t + 1) 0 - qrs.getD t 0) := by
    rw [hb]
    refine List.map_congr_left ?_
    intro t ht
    have hle : qrs.getD t 0 ≤ qrs.getD (t + 1) 0 := hq.2.2.1 t ht
    have ht' := List.mem_range.mp ht
    have hleq : qrs.getD (t + 1) 0 ≤ queries.length :=
      splits_le_n hq (t + 1) (by omega)
    simpa using knnBlock_length points queries k prs qrs t hle hleq
  rw [hcong]
  have h2 := hq.1
  have hsum := sum_range_sub_telescope qrs hq.2.1 hq.2.2.1 (qrs.length - 1)
    (by omega)
  rw [hsum]
  exact hq.2.2.2

theorem knnCore_getD (points queries : List Q3) (k : ℕ) (prs qrs : List ℕ)
    (hb : prs.length = qrs.length) (hq : validSplits qrs queries.length)
    (i j : ℕ) (hi : i < qrs.length - 1)
    (hj : j < qrs.getD (i + 1) 0 - qrs.getD i 0) :
    (knnCore points queries k prs qrs).getD (qrs.getD i 0 + j) []
      = (knnOne (slice points (prs.getD i 0) (prs.getD (i + 1) 0))
           (queries.getD (qrs.getD i 0 + j) (0, 0, 0)) k).map
          (fun pr => (pr.1 + prs.getD i 0, pr.2)) := by
  have h2 := hq.1
  have hle : qrs.getD i 0 ≤ qrs.getD (i + 1) 0 :=
    hq.2.2.1 i (by simpa using hi)
  have hleq : qrs.getD (i + 1) 0 ≤ queries.length :=
    splits_le_n hq (i + 1) (by omega)
  unfold knnCore
  set blocks := (List.range (prs.length - 1)).map
    (knnBlock points queries k prs qrs) with hblocks
  have hBi : blocks.getD i [] = knnBlock points queries k prs qrs i := by
    rw [hblocks]
    exact getD_range_map _ _ i (by omega) _
  have hjB : j < (blocks.getD i []).length := by
    rw [hBi, knnBlock_length points queries k prs qrs i hle hleq]
    exact hj
  have hoff : ((blocks.take i).map List.length).sum = qrs.getD i 0 := by
    have htk : blocks.take i
        = (List.range i).map (knnBlock points queries k prs qrs) := by
      rw [hblocks, ← List.map_take, List.take_range]
      have hmin : i ⊓ (prs.length - 1) = i := by omega
      rw [hmin]
    rw [htk, List.map_map]
    have hcong : (List.range i).map
          (List.length ∘ knnBlock points queries k prs qrs)
        = (List.range i).map (fun t => qrs.getD (t + 1) 0 - qrs.getD t 0) := by
      refine List.map_congr_left ?_
      intro t ht
      have ht' := List.mem_range.mp ht
      have hlet : qrs.getD t 0 ≤ qrs.getD (t + 1) 0 := by
        refine hq.2.2.1 t ?_
        simp only [List.mem_range]
        omega
      have hleqt : qrs.getD (t + 1) 0 ≤ queries.length :=
        splits_le_n hq (t + 1) (by omega)
      simpa using knnBlock_length points queries k prs qrs t hlet hleqt
    rw [hcong]
    exact sum_range_sub_telescope qrs hq.2.1 hq.2.2.1 i (by omega)
  conv_lhs => rw [← hoff]
  rw [getD_flatten blocks i j [] hjB, hBi]
  unfold knnBlock
  have hlen : j < (slice queries (qrs.getD i 0) (qrs.getD (i + 1) 0)).length := by
    rw [length_slice _ _ _ hle hleq]
    exact hj
  rw [getD_map _ _ j hlen (0, 0, 0)]
  rw [getD_slice queries _ _ j (0, 0, 0) hj hleq]

/-- Claim C9: `knn_batch` fails (the leading assert fires, before any
neighbor computation) exactly when the two row-splits buffers differ in
length; with equal lengths the error branch is unreachable. -/
theorem knn_batch_batch_mismatch :
    ∀ (points queries : List Q3) (k : ℕ) (prs qrs : List ℕ),
      knn_batch points queries k prs qrs = none ↔ prs.length ≠ qrs.length := by
  intro points queries k prs qrs
  unfold knn_batch
  by_cases h : prs.length = qrs.length <;> simp [h]

/-- Claim C1: every neighbor index returned by the batched search for a
query of cloud `i` is a global index into the concatenated source points
lying in `[sourceRowSplits[i], sourceRowSplits[i+1])`. -/
theorem knn_batch_partition_bound (points queries : List Q3) (k : ℕ)
    (prs qrs : List ℕ) (hb : prs.length = qrs.length)
    (hp : validSplits prs points.length)
    (hq : validSplits qrs queries.length)
    (hne : ∀ i ∈ List.range (prs.length - 1), prs.getD i 0 < prs.getD (i + 1) 0) :
    ∃ idx dist, knn_batch points queries k prs qrs = some (idx, dist) ∧
      ∀ i ∈ List.range (qrs.length - 1), ∀ q, qrs.getD i 0 ≤ q →
        q < qrs.getD (i + 1) 0 → ∀ j ∈ idx.getD q [],
          prs.getD i 0 ≤ j ∧ j < prs.getD (i + 1) 0 := by
  have hsome : knn_batch points queries k prs qrs
      = some ((knnCore points queries k prs qrs).map (List.map Prod.fst),
              (knnCore points queries k prs qrs).map (List.map Prod.snd)) := by
    unfold knn_batch
    rw [if_pos hb]
  refine ⟨_, _, hsome, ?_⟩
  intro i hi q hq1 hq2 j hjmem
  have hi' := List.mem_range.mp hi
  have hcl := knnCore_length points queries k prs qrs hb hq
  have hqlen : q < queries.length := by
    have := splits_le_n hq (i + 1) (by omega)
    omega
  rw [getD_map _ _ q (by rw [hcl]; exact hqlen) []] at hjmem
  have hqsplit : q = qrs.getD i 0 + (q - qrs.getD i 0) := by omega
  rw [hqsplit, knnCore_getD points queries k prs qrs hb hq i (q - qrs.getD i 0)
    hi' (by omega)] at hjmem
  rw [List.map_map] at hjmem
  rcases List.mem_map.mp hjmem with ⟨pr, hpr, rfl⟩
  have hbound := (knnOne_mem hpr).1
  have hple : prs.getD i 0 ≤ prs.getD (i + 1) 0 := by
    refine hp.2.2.1 i ?_
    simp only [List.mem_range]
    omega
  have hpleq : prs.getD (i + 1) 0 ≤ points.length := by
    have h2 := hp.1
    exact splits_le_n hp (i + 1) (by omega)
  rw [length_slice _ _ _ hple hpleq] at hbound
  have hfst : (Prod.fst ∘ fun pr : ℕ × ℚ => (pr.1 + prs.getD i 0, pr.2)) pr
      = pr.1 + prs.getD i 0 := rfl
  rw [hfst]
  omega

/-- Witness for C1 at a concrete two-cloud batch. -/
theorem knn_batch_partition_bound_w :
    ∃ idx dist,
      knn_batch [(0, 0, 0), (1, 0, 0), (5, 0, 0)] [(0, 0, 0), (5, 1, 0)] 2
          [0, 2, 3] [0, 1, 2] = some (idx, dist) ∧
      ∀ i ∈ List.range 2, ∀ q, [0, 1, 2].getD i 0 ≤ q →
        q < [0, 1, 2].getD (i + 1) 0 → ∀ j ∈ idx.getD q [],
          [0, 2, 3].getD i 0 ≤ j ∧ j < [0, 2, 3].getD (i + 1) 0 := by
  have h := knn_batch_partition_bound [(0, 0, 0), (1, 0, 0), (5, 0, 0)]
    [(0, 0, 0), (5, 1, 0)] 2 [0, 2, 3] [0, 1, 2] (by decide) (by decide)
    (by decide) (by decide)
  simpa using h

/-! ### GroupingOperator (`queryandgroup`) -/

/-- `queryandgroup` (point_transformer.py:510).  The Python contiguity
assertion `queries.is_contiguous()` dereferences `queries` before the
`if queries is None: queries = points` defaulting branch, so a `None`
argument raises (`none` here) and the defaulting branch is dead code.
When `idx` is absent it is computed by `knn_batch` with
`return_distances=False`.  For query `q` and neighbor index `j` the
gathered row is the relative position `points[j] - q` (3 channels,
present exactly when `use_xyz`) followed by the gathered feature row
`feat[j]`; all gathers read into fresh buffers. -/
def queryandgroup (nsample : ℕ) (points : List Q3) (queries? : Option (List Q3))
    (feat : List (List ℚ)) (idx? : Option (List (List ℕ))) (prs qrs : List ℕ)
    (use_xyz : Bool) : Option (List (List (List ℚ))) :=
  match queries? with
  | none => none
  | some queries =>
    (match idx? with
     | some idx => some idx
     | none => (knn_batch points queries nsample prs qrs).map Prod.fst).map
      (fun idx =>
        List.zipWith (fun (q : Q3) (nbrs : List ℕ) =>
          nbrs.map (fun j =>
            let rel := sub3 (points.getD j (0, 0, 0)) q
            let gf := feat.getD j []
            if use_xyz then [rel.1, rel.2.1, rel.2.2] ++ gf else gf))
          queries idx)

/-- Claim C10: calling `queryandgroup` with `queries = None` raises before
the defaulting branch `if queries is None: queries = points` can run, for
every combination of the remaining arguments; hence every call that
returns normally passed a non-`None` queries argument. -/
theorem queryandgroup_none_queries :
    ∀ (nsample : ℕ) (points : List Q3) (feat : List (List ℚ))
      (idx? : Option (List (List ℕ))) (prs qrs : List ℕ) (use_xyz : Bool),
      queryandgroup nsample points none feat idx? prs qrs use_xyz = none := by
  intro nsample points feat idx? prs qrs use_xyz
  rfl

/-! ### Neural-module primitives -/

/-- An `nn.Linear` layer: weight matrix (one row per output channel) and
bias vector. -/
structure LinearP where
  w : List (List ℚ)
  b : List ℚ

/-- An `nn.BatchNorm1d` layer in evaluation mode: the per-channel affine
map `v ↦ scale * v + shift` with the running statistics folded in. -/
structure AffineP where
  scale : List ℚ
  shift : List ℚ

/-- Dot product (zip-truncating). -/
def dot (a b : List ℚ) : ℚ := (List.zipWith (· * ·) a b).sum

/-- `nn.Linear` applied to one row. -/
def applyLinear (L : LinearP) (x : List ℚ) : List ℚ :=
  List.zipWith (fun w bj => dot w x + bj) L.w L.b

/-- `nn.Linear(..., bias=False)` applied to one row. -/
def linearNB (W : List (List ℚ)) (x : List ℚ) : List ℚ := W.map (fun w => dot w x)

/-- `nn.ReLU` on one scalar. -/
def reluQ (x : ℚ) : ℚ := max x 0

/-- `nn.ReLU` on one row. -/
def reluRow (x : List ℚ) : List ℚ := x.map reluQ

/-- BatchNorm1d (eval mode) on a `(n, C)` tensor acts per channel along
each row. -/
def affineRow (P : AffineP) (x : List ℚ) : List ℚ :=
  List.zipWith (fun sc v => sc.1 * v + sc.2) (P.scale.zip P.shift) x

/-- BatchNorm1d (eval mode) on one sample of a `(n, C, L)` tensor: channel
`j` is row `j` of the sample's matrix. -/
def bnChan (P : AffineP) (M : List (List ℚ)) : List (List ℚ) :=
  List.zipWith (fun sc row => row.map (fun v => sc.1 * v + sc.2))
    (P.scale.zip P.shift) M

/-- `transpose(1, 2).contiguous()` of one sample: the matrix transpose,
with the (statically known) number of columns of the input supplied. -/
def transposeMat (ncols : ℕ) (M : List (List ℚ)) : List (List ℚ) :=
  (List.range ncols).map (fun j => M.map (fun r => r.getD j 0))

/-- `nn.MaxPool1d(nsample)` followed by `squeeze(-1)`: the maximum of a
channel row. -/
def maxPoolRow (r : List ℚ) : ℚ := r.foldl max (r.getD 0 0)

/-- Shape contract of a linear layer with `cout` output channels. -/
def wfLinear (L : LinearP) (cout : ℕ) : Prop :=
  L.w.length = cout ∧ L.b.length = cout

instance (L : LinearP) (cout : ℕ) : Decidable (wfLinear L cout) := by
  unfold wfLinear; infer_instance

/-- Shape contract of a batch-norm layer over `c` channels. -/
def wfAffine (A : AffineP) (c : ℕ) : Prop :=
  A.scale.length = c ∧ A.shift.length = c

instance (A : AffineP) (c : ℕ) : Decidable (wfAffine A c) := by
  unfold wfAffine; infer_instance

theorem length_applyLinear (L : LinearP) (x : List ℚ) (cout : ℕ)
    (h : wfLinear L cout) : (applyLinear L x).length = cout := by
  simp only [applyLinear, List.length_zipWith, h.1, h.2]
  omega

theorem length_affineRow (A : AffineP) (x : List ℚ) (c : ℕ)
    (h : wfAffine A c) (hx : x.length = c) : (affineRow A x).length = c := by
  simp only [affineRow, List.length_zipWith, List.length_zip, h.1, h.2, hx]
  omega

theorem length_reluRow (x : List ℚ) : (reluRow x).length = x.length := by
  simp [reluRow]

theorem length_linearNB (W : List (List ℚ)) (x : List ℚ) :
    (linearNB W x).length = W.length := by
  simp [linearNB]

/-! ### scanl lemmas and `new_row_splits` -/

theorem scanl_getD_sum (l : List ℕ) (c i : ℕ) (hi : i ≤ l.length) :
    (List.scanl (· + ·) c l).getD i 0 = c + (l.take i).sum := by
  induction l generalizing c i with
  | nil =>
    have hi0 : i = 0 := by simpa using hi
    subst hi0
    simp [List.scanl]
  | cons a t ih =>
    cases i with
    | zero => simp [List.scanl_cons]
    | succ j =>
      have hj : j ≤ t.length := by simpa using hi
      have hstep := ih (c + a) j hj
      simp only [List.scanl_cons, List.singleton_append, List.getD_cons_succ,
        List.take_succ_cons, List.sum_cons]
      rw [hstep]
      omega

/-- The `new_row_splits` loop of `TransitionDown.forward`
(point_transformer.py:415-423): starting from `[0]`, a running count
accumulates `(row_splits[i] - row_splits[i-1]) // stride` for each cloud,
appending after every step; this is a left scan over the per-cloud floored
counts. -/
def newRowSplits (rs : List ℕ) (stride : ℕ) : List ℕ :=
  List.scanl (· + ·) 0
    ((List.range (rs.length - 1)).map
      (fun i => (rs.getD (i + 1) 0 - rs.getD i 0) / stride))

theorem newRowSplits_length (rs : List ℕ) (stride : ℕ) (h : 1 ≤ rs.length) :
    (newRowSplits rs stride).length = rs.length := by
  simp only [newRowSplits, List.length_scanl, List.length_map, List.length_range]
  omega

theorem newRowSplits_getD (rs : List ℕ) (stride : ℕ) (i : ℕ)
    (hi : i ≤ rs.length - 1) :
    (newRowSplits rs stride).getD i 0
      = ((List.range i).map
          (fun t => (rs.getD (t + 1) 0 - rs.getD t 0) / stride)).sum := by
  unfold newRowSplits
  rw [scanl_getD_sum _ _ _ (by simpa using hi)]
  rw [← List.map_take, List.take_range]
  have hmin : i ⊓ (rs.length - 1) = i := by omega
  rw [hmin, Nat.zero_add]

theorem newRowSplits_zero (rs : List ℕ) (stride : ℕ) :
    (newRowSplits rs stride).getD 0 0 = 0 := by
  rw [newRowSplits_getD rs stride 0 (by omega)]
  simp

theorem newRowSplits_step (rs : List ℕ) (stride : ℕ) (i : ℕ)
    (hi : i < rs.length - 1) :
    (newRowSplits rs stride).getD (i + 1) 0
      = (newRowSplits rs stride).getD i 0
        + (rs.getD (i + 1) 0 - rs.getD i 0) / stride := by
  rw [newRowSplits_getD rs stride i (by omega),
    newRowSplits_getD rs stride (i + 1) (by omega), List.range_succ]
  simp

theorem newRowSplits_mono (rs : List ℕ) (stride : ℕ) :
    ∀ i ∈ List.range ((newRowSplits rs stride).length - 1),
      (newRowSplits rs stride).getD i 0
        ≤ (newRowSplits rs stride).getD (i + 1) 0 := by
  intro i hi
  have hi' := List.mem_range.mp hi
  have hlen : (newRowSplits rs stride).length = rs.length - 1 + 1 := by
    simp [newRowSplits, List.length_scanl]
  rw [newRowSplits_step rs stride i (by omega)]
  exact Nat.le_add_right _ _

/-! ### Furthest-point sampling (spec-modelled) -/

/-- Minimum squared distance from candidate `j` to the already selected
indices. -/
def minSelDist (pts : List Q3) (sel : List ℕ) (j : ℕ) : ℚ :=
  ((sel.map (fun i =>
      sqDist (pts.getD j (0, 0, 0)) (pts.getD i (0, 0, 0)))).min?).getD 0

/-- One furthest-point-sampling step on the cloud occupying `[s, e)`: the
candidate maximizing the minimum squared distance to the selected set. -/
def chooseNext (pts : List Q3) (s e : ℕ) (sel : List ℕ) : ℕ :=
  ((List.range (e - s)).map (fun t => s + t)).foldl
    (fun best j =>
      if minSelDist pts sel best < minSelDist pts sel j then j else best) s

/-- Iterated selection, accumulating `m` further indices. -/
def fpsGo (pts : List Q3) (s e : ℕ) : ℕ → List ℕ → List ℕ
  | 0, sel => sel.reverse
  | m + 1, sel => fpsGo pts s e m (chooseNext pts s e sel :: sel)

/-- Modelled from the spec: one cloud's furthest-point sampling — "a
subsampling strategy that iteratively selects points maximizing minimum
distance to already-selected points"; seeded at the cloud's first point,
it returns `m` indices into `[s, e)`. -/
def fpsCloud (pts : List Q3) (s e m : ℕ) : List ℕ :=
  match m with
  | 0 => []
  | m' + 1 => fpsGo pts s e m' [s]

/-- Modelled from the spec: `furthest_point_sample_v2` (imported from
`ml3d/torch/utils/pointnet/pointnet2_utils`, which is outside the given
sources) — per-cloud furthest-point sampling selecting, for cloud `i`,
`new_row_splits[i+1] - new_row_splits[i]` representative indices from the
cloud's own range `[row_splits[i], row_splits[i+1])`, concatenated in
batch order. -/
def furthestPointSampleV2 (pts : List Q3) (rs nrs : List ℕ) : List ℕ :=
  ((List.range (rs.length - 1)).map
    (fun i => fpsCloud pts (rs.getD i 0) (rs.getD (i + 1) 0)
      (nrs.getD (i + 1) 0 - nrs.getD i 0))).flatten

theorem fpsGo_length (pts : List Q3) (s e : ℕ) :
    ∀ (m : ℕ) (sel : List ℕ), (fpsGo pts s e m sel).length = m + sel.length := by
  intro m
  induction m with
  | zero => intro sel; simp [fpsGo]
  | succ m' ih =>
    intro sel
    rw [fpsGo, ih]
    simp only [List.length_cons]
    omega

theorem fpsCloud_length (pts : List Q3) (s e m : ℕ) :
    (fpsCloud pts s e m).length = m := by
  cases m with
  | zero => rfl
  | succ m' =>
    rw [fpsCloud, fpsGo_length]
    simp

theorem chooseNext_bound (pts : List Q3) (s e : ℕ) (sel : List ℕ)
    (hse : s < e) : s ≤ chooseNext pts s e sel ∧ chooseNext pts s e sel < e := by
  unfold chooseNext
  refine List.foldlRecOn (motive := fun b => s ≤ b ∧ b < e) _ _ s
    ⟨Nat.le_refl s, hse⟩ ?_
  intro b hb a ha
  rcases List.mem_map.mp ha with ⟨t, ht, rfl⟩
  have ht' := List.mem_range.mp ht
  by_cases hc : minSelDist pts sel b < minSelDist pts sel (s + t)
  · rw [if_pos hc]; omega
  · rw [if_neg hc]; exact hb

theorem fpsGo_bound (pts : List Q3) (s e : ℕ) (hse : s < e) :
    ∀ (m : ℕ) (sel : List ℕ), (∀ x ∈ sel, s ≤ x ∧ x < e) →
      ∀ x ∈ fpsGo pts s e m sel, s ≤ x ∧ x < e := by
  intro m
  induction m with
  | zero =>
    intro sel hsel x hx
    rw [fpsGo] at hx
    exact hsel x (List.mem_reverse.mp hx)
  | succ m' ih =>
    intro sel hsel x hx
    rw [fpsGo] at hx
    refine ih _ ?_ x hx
    intro y hy
    rcases List.mem_cons.mp hy with rfl | hmem
    · exact chooseNext_bound pts s e sel hse
    · exact hsel y hmem

theorem fpsCloud_bound (pts : List Q3) (s e m : ℕ) (hse : s < e) :
    ∀ x ∈ fpsCloud pts s e m, s ≤ x ∧ x < e := by
  cases m with
  | zero => intro x hx; simp [fpsCloud] at hx
  | succ m' =>
    intro x hx
    rw [fpsCloud] at hx
    refine fpsGo_bound pts s e hse m' [s] ?_ x hx
    intro y hy
    rcases List.mem_cons.mp hy with rfl | hmem
    · exact ⟨Nat.le_refl _, hse⟩
    · simp at hmem

theorem fps_length (pts : List Q3) (rs nrs : List ℕ) :
    (furthestPointSampleV2 pts rs nrs).length
      = ((List.range (rs.length - 1)).map
          (fun i => nrs.getD (i + 1) 0 - nrs.getD i 0)).sum := by
  unfold furthestPointSampleV2
  rw [List.length_flatten, List.map_map]
  congr 1
  refine List.map_congr_left ?_
  intro t _
  simp [fpsCloud_length]

theorem fps_bound (pts : List Q3) (rs nrs : List ℕ) (n : ℕ)
    (hp : validSplits rs n)
    (hm : ∀ i ∈ List.range (rs.length - 1),
      1 ≤ nrs.getD (i + 1) 0 - nrs.getD i 0 → rs.getD i 0 < rs.getD (i + 1) 0) :
    ∀ x ∈ furthestPointSampleV2 pts rs nrs, x < n := by
  intro x hx
  rcases List.mem_flatten.mp hx with ⟨bl, hbl, hxbl⟩
  rcases List.mem_map.mp hbl with ⟨i, hi, rfl⟩
  have hi' := List.mem_range.mp hi
  rcases Nat.eq_zero_or_pos (nrs.getD (i + 1) 0 - nrs.getD i 0) with h0 | h1
  · rw [h0] at hxbl
    simp [fpsCloud] at hxbl
  · have hse := hm i hi h1
    have hb := fpsCloud_bound pts _ _ _ hse x hxbl
    have h2 := hp.1
    have hle := splits_le_n hp (i + 1) (by omega)
    omega

/-! ### TransitionDown -/

/-- Parameters of a `TransitionDown` module: stride, neighbor count, the
single linear layer (`bias=False`, input width `3 + in_planes` when
`stride != 1`, else `in_planes`) and the batch norm. -/
structure TDParams where
  stride : ℕ
  nsample : ℕ
  linW : List (List ℚ)
  bn : AffineP

/-- The feature pipeline of the `stride != 1` branch applied to the
grouped neighborhoods: linear (`bias=False`), `transpose(1, 2)`, batch
norm over channels, ReLU, max-pool over the neighbor dimension. -/
def tdPool (P : TDParams) (g : List (List (List ℚ))) : List (List ℚ) :=
  let f1 := g.map (fun rows => rows.map (linearNB P.linW))
  let f2 := (f1.map (transposeMat P.linW.length)).map (bnChan P.bn)
  let f3 := f2.map (fun rows => rows.map reluRow)
  f3.map (fun rows => rows.map maxPoolRow)

/-- `TransitionDown.forward` (point_transformer.py:411-442).  When
`stride != 1`: derive `new_row_splits`, pick representatives with
`furthest_point_sample_v2`, gather their coordinates, group each
representative's `nsample` neighbors with relative positions
(`queryandgroup`), then apply the `tdPool` pipeline.  When
`stride == 1`: only linear / batch norm / ReLU on the features. -/
def tdForward (P : TDParams) (pxo : Pxo) : Option Pxo :=
  if P.stride ≠ 1 then
    let nrs := newRowSplits pxo.rs P.stride
    let idx := furthestPointSampleV2 pxo.point pxo.rs nrs
    let npoint := idx.map (fun j => pxo.point.getD j (0, 0, 0))
    match queryandgroup P.nsample pxo.point (some npoint) pxo.feat none
        pxo.rs nrs true with
    | none => none
    | some g => some ⟨npoint, tdPool P g, nrs⟩
  else
    some ⟨pxo.point,
      pxo.feat.map (fun r => reluRow (affineRow P.bn (linearNB P.linW r))),
      pxo.rs⟩

theorem length_tdPool (P : TDParams) (g : List (List (List ℚ))) :
    (tdPool P g).length = g.length := by
  simp [tdPool]

/-- With `queries` present and `idx` absent, `queryandgroup` succeeds as
soon as the two row-splits buffers have equal length, and returns the
gather over the `knn_batch` indices. -/
theorem qg_some (nsample : ℕ) (points queries : List Q3) (feat : List (List ℚ))
    (prs qrs : List ℕ) (u : Bool) (hb : prs.length = qrs.length) :
    queryandgroup nsample points (some queries) feat none prs qrs u
      = some (List.zipWith (fun (q : Q3) (nbrs : List ℕ) =>
          nbrs.map (fun j =>
            let rel := sub3 (points.getD j (0, 0, 0)) q
            let gf := feat.getD j []
            if u then [rel.1, rel.2.1, rel.2.2] ++ gf else gf))
          queries ((knnCore points queries nsample prs qrs).map
            (List.map Prod.fst))) := by
  simp [queryandgroup, knn_batch, hb]

theorem fps_length_eq (pts : List Q3) (rs : List ℕ) (stride : ℕ)
    (h2 : 2 ≤ rs.length) :
    (furthestPointSampleV2 pts rs (newRowSplits rs stride)).length
      = lastD (newRowSplits rs stride) := by
  rw [fps_length]
  have hlen := newRowSplits_length rs stride (by omega)
  have htel := sum_range_sub_telescope (newRowSplits rs stride)
    (newRowSplits_zero rs stride) (newRowSplits_mono rs stride)
    ((newRowSplits rs stride).length - 1) (by rw [hlen]; omega)
  rw [hlen] at htel
  unfold lastD
  rw [hlen]
  exact htel

theorem newRowSplits_valid (pts : List Q3) (rs : List ℕ) (stride : ℕ)
    (h2 : 2 ≤ rs.length) :
    validSplits (newRowSplits rs stride)
      (furthestPointSampleV2 pts rs (newRowSplits rs stride)).length := by
  refine ⟨?_, newRowSplits_zero rs stride, newRowSplits_mono rs stride, ?_⟩
  · rw [newRowSplits_length rs stride (by omega)]
    exact h2
  · exact (fps_length_eq pts rs stride h2).symm

/-- The `stride != 1` branch of `TransitionDown.forward`: the output
points are the gathered furthest-point-sample representatives, the output
row splits are `new_row_splits`, and the output features have one row per
representative. -/
theorem td_stride_spec (P : TDParams) (pxo : Pxo) (hv : pxoValid pxo)
    (hs : P.stride ≠ 1) :
    ∃ f, tdForward P pxo
        = some ⟨(furthestPointSampleV2 pxo.point pxo.rs
              (newRowSplits pxo.rs P.stride)).map
            (fun j => pxo.point.getD j (0, 0, 0)), f,
          newRowSplits pxo.rs P.stride⟩
      ∧ f.length = (furthestPointSampleV2 pxo.point pxo.rs
          (newRowSplits pxo.rs P.stride)).length := by
  obtain ⟨pts, feat, rs⟩ := pxo
  simp only at hv ⊢
  have hval : validSplits rs pts.length := hv.2
  have h2 : 2 ≤ rs.length := hval.1
  have hlenn : (newRowSplits rs P.stride).length = rs.length :=
    newRowSplits_length rs P.stride (by omega)
  have hvn := newRowSplits_valid pts rs P.stride h2
  have hnp : ((furthestPointSampleV2 pts rs (newRowSplits rs P.stride)).map
      (fun j => pts.getD j (0, 0, 0))).length
      = (furthestPointSampleV2 pts rs (newRowSplits rs P.stride)).length := by
    simp
  have hvn' : validSplits (newRowSplits rs P.stride)
      ((furthestPointSampleV2 pts rs (newRowSplits rs P.stride)).map
        (fun j => pts.getD j (0, 0, 0))).length := by
    rw [hnp]; exact hvn
  have hqg := qg_some P.nsample pts
    ((furthestPointSampleV2 pts rs (newRowSplits rs P.stride)).map
      (fun j => pts.getD j (0, 0, 0))) feat rs (newRowSplits rs P.stride) true
    hlenn.symm
  refine ⟨tdPool P (List.zipWith (fun (q : Q3) (nbrs : List ℕ) =>
      nbrs.map (fun j =>
        let rel := sub3 (pts.getD j (0, 0, 0)) q
        let gf := feat.getD j []
        if true then [rel.1, rel.2.1, rel.2.2] ++ gf else gf))
    ((furthestPointSampleV2 pts rs (newRowSplits rs P.stride)).map
      (fun j => pts.getD j (0, 0, 0)))
    ((knnCore pts ((furthestPointSampleV2 pts rs (newRowSplits rs P.stride)).map
        (fun j => pts.getD j (0, 0, 0))) P.nsample rs
        (newRowSplits rs P.stride)).map (List.map Prod.fst))), ?_, ?_⟩
  · unfold tdForward
    split
    · simp only [hqg]
    · next h => exact (h hs).elim
  · have hcore := knnCore_length pts
      ((furthestPointSampleV2 pts rs (newRowSplits rs P.stride)).map
        (fun j => pts.getD j (0, 0, 0))) P.nsample rs (newRowSplits rs P.stride)
      hlenn.symm hvn'
    rw [length_tdPool]
    simp only [List.length_map, List.length_zipWith, hcore, hnp]
    omega

/-- Claim C3: `TransitionDown` with `stride == 1` returns points and row
splits unchanged (only the feature width changes, to the configured
output width); with `stride == s > 1` the output row splits are the left
scan (prefix sums) of the per-cloud counts
`floor(input_count_i / s)`, hence start at `0` and are non-decreasing,
and the number of output points is the last output row split. -/
theorem transition_down_row_splits (P1 P2 : TDParams) (pxo : Pxo)
    (hv : pxoValid pxo) (h1 : P1.stride = 1) (hw1 : wfAffine P1.bn P1.linW.length)
    (h2 : 2 ≤ P2.stride) :
    (∃ f, tdForward P1 pxo = some ⟨pxo.point, f, pxo.rs⟩
      ∧ f.length = pxo.feat.length ∧ ∀ r ∈ f, r.length = P1.linW.length) ∧
    (∃ pxo', tdForward P2 pxo = some pxo' ∧
      pxo'.rs.length = pxo.rs.length ∧ pxo'.rs.getD 0 0 = 0 ∧
      (∀ i ∈ List.range (pxo.rs.length - 1),
        pxo'.rs.getD (i + 1) 0 - pxo'.rs.getD i 0
          = (pxo.rs.getD (i + 1) 0 - pxo.rs.getD i 0) / P2.stride ∧
        pxo'.rs.getD i 0 ≤ pxo'.rs.getD (i + 1) 0) ∧
      pxo'.point.length = lastD pxo'.rs ∧ pxo'.feat.length = lastD pxo'.rs) := by
  constructor
  · refine ⟨pxo.feat.map (fun r => reluRow (affineRow P1.bn (linearNB P1.linW r))),
      ?_, ?_, ?_⟩
    · unfold tdForward
      split
      · next hcond => exact absurd h1 hcond
      · rfl
    · simp
    · intro r hr
      rcases List.mem_map.mp hr with ⟨x, _, rfl⟩
      rw [length_reluRow, length_affineRow P1.bn _ P1.linW.length hw1
        (length_linearNB _ _)]
  · have hval : validSplits pxo.rs pxo.point.length := hv.2
    have hrs2 : 2 ≤ pxo.rs.length := hval.1
    obtain ⟨f, heq, hflen⟩ := td_stride_spec P2 pxo hv (by omega)
    refine ⟨_, heq, ?_, ?_, ?_, ?_, ?_⟩
    · simpa using newRowSplits_length pxo.rs P2.stride (by omega)
    · exact newRowSplits_zero pxo.rs P2.stride
    · intro i hi
      have hi' := List.mem_range.mp hi
      constructor
      · show (newRowSplits pxo.rs P2.stride).getD (i + 1) 0
            - (newRowSplits pxo.rs P2.stride).getD i 0
          = (pxo.rs.getD (i + 1) 0 - pxo.rs.getD i 0) / P2.stride
        rw [newRowSplits_step pxo.rs P2.stride i (by omega)]
        exact Nat.add_sub_cancel_left _ _
      · have hlenn := newRowSplits_length pxo.rs P2.stride (by omega)
        show (newRowSplits pxo.rs P2.stride).getD i 0
          ≤ (newRowSplits pxo.rs P2.stride).getD (i + 1) 0
        refine newRowSplits_mono pxo.rs P2.stride i ?_
        simp only [List.mem_range, hlenn]
        omega
    · show ((furthestPointSampleV2 pxo.point pxo.rs
          (newRowSplits pxo.rs P2.stride)).map
            (fun j => pxo.point.getD j (0, 0, 0))).length
        = lastD (newRowSplits pxo.rs P2.stride)
      rw [List.length_map]
      exact fps_length_eq pxo.point pxo.rs P2.stride hrs2
    · show f.length = lastD (newRowSplits pxo.rs P2.stride)
      rw [hflen]
      exact fps_length_eq pxo.point pxo.rs P2.stride hrs2

/-- Witness for C3 at a concrete batch of two clouds of 3 and 2 points. -/
theorem transition_down_row_splits_w :
    (∃ f, tdForward ⟨1, 2, [[1, 0]], ⟨[1], [0]⟩⟩
        ⟨[(0, 0, 0), (1, 0, 0), (2, 0, 0), (5, 0, 0), (6, 0, 0)],
          [[1], [2], [3], [4], [5]], [0, 3, 5]⟩
      = some ⟨[(0, 0, 0), (1, 0, 0), (2, 0, 0), (5, 0, 0), (6, 0, 0)], f,
          [0, 3, 5]⟩
      ∧ f.length = 5 ∧ ∀ r ∈ f, r.length = 1) ∧
    (∃ pxo', tdForward ⟨2, 2, [[1, 0, 0, 0]], ⟨[1], [0]⟩⟩
        ⟨[(0, 0, 0), (1, 0, 0), (2, 0, 0), (5, 0, 0), (6, 0, 0)],
          [[1], [2], [3], [4], [5]], [0, 3, 5]⟩ = some pxo' ∧
      pxo'.rs.length = 3 ∧ pxo'.rs.getD 0 0 = 0 ∧
      (∀ i ∈ List.range 2,
        pxo'.rs.getD (i + 1) 0 - pxo'.rs.getD i 0
          = ([0, 3, 5].getD (i + 1) 0 - [0, 3, 5].getD i 0) / 2 ∧
        pxo'.rs.getD i 0 ≤ pxo'.rs.getD (i + 1) 0) ∧
      pxo'.point.length = lastD pxo'.rs ∧ pxo'.feat.length = lastD pxo'.rs) := by
  have h := transition_down_row_splits ⟨1, 2, [[1, 0]], ⟨[1], [0]⟩⟩
    ⟨2, 2, [[1, 0, 0, 0]], ⟨[1], [0]⟩⟩
    ⟨[(0, 0, 0), (1, 0, 0), (2, 0, 0), (5, 0, 0), (6, 0, 0)],
      [[1], [2], [3], [4], [5]], [0, 3, 5]⟩
    (by decide) (by decide) (by decide) (by decide)
  simpa using h

/-- Claim C8: with `stride > 1` every output point of `TransitionDown` is
one of the input points — the representatives are selected by index via
furthest-point sampling, with every selected index in range, so mapping a
downsampled point back to the original positions is exact. -/
theorem transition_down_point_subset (P : TDParams) (pxo : Pxo)
    (hv : pxoValid pxo) (hs : 2 ≤ P.stride) :
    ∃ pxo', tdForward P pxo = some pxo' ∧
      pxo'.point = (furthestPointSampleV2 pxo.point pxo.rs
          (newRowSplits pxo.rs P.stride)).map
        (fun j => pxo.point.getD j (0, 0, 0)) ∧
      (∀ j ∈ furthestPointSampleV2 pxo.point pxo.rs
          (newRowSplits pxo.rs P.stride), j < pxo.point.length) ∧
      ∀ p ∈ pxo'.point, p ∈ pxo.point := by
  obtain ⟨f, heq, _⟩ := td_stride_spec P pxo hv (by omega)
  have hval : validSplits pxo.rs pxo.point.length := hv.2
  have hbound : ∀ j ∈ furthestPointSampleV2 pxo.point pxo.rs
      (newRowSplits pxo.rs P.stride), j < pxo.point.length := by
    refine fps_bound pxo.point pxo.rs _ pxo.point.length hval ?_
    intro i hi hdiff
    have hi' := List.mem_range.mp hi
    rw [newRowSplits_step pxo.rs P.stride i (by omega),
      Nat.add_sub_cancel_left] at hdiff
    rcases Nat.lt_or_ge (pxo.rs.getD (i + 1) 0 - pxo.rs.getD i 0) P.stride
      with hlt | hge
    · rw [Nat.div_eq_of_lt hlt] at hdiff
      omega
    · omega
  refine ⟨_, heq, rfl, hbound, ?_⟩
  intro p hp
  rcases List.mem_map.mp hp with ⟨j, hj, rfl⟩
  exact getD_mem' pxo.point j (hbound j hj) _

/-- Witness for C8 at a concrete two-cloud batch with stride 2. -/
theorem transition_down_point_subset_w :
    ∃ pxo', tdForward ⟨2, 2, [[1, 0, 0, 0]], ⟨[1], [0]⟩⟩
        ⟨[(0, 0, 0), (1, 0, 0), (2, 0, 0), (5, 0, 0), (6, 0, 0)],
          [[1], [2], [3], [4], [5]], [0, 3, 5]⟩ = some pxo' ∧
      pxo'.point = (furthestPointSampleV2
          [(0, 0, 0), (1, 0, 0), (2, 0, 0), (5, 0, 0), (6, 0, 0)] [0, 3, 5]
          (newRowSplits [0, 3, 5] 2)).map
        (fun j => [(0, 0, 0), (1, 0, 0), (2, 0, 0), (5, 0, 0),
          (6, 0, 0)].getD j (0, 0, 0)) ∧
      (∀ j ∈ furthestPointSampleV2
          [(0, 0, 0), (1, 0, 0), (2, 0, 0), (5, 0, 0), (6, 0, 0)] [0, 3, 5]
          (newRowSplits [0, 3, 5] 2), j < 5) ∧
      ∀ p ∈ pxo'.point,
        p ∈ [(0, 0, 0), (1, 0, 0), (2, 0, 0), (5, 0, 0), (6, 0, 0)] := by
  have h := transition_down_point_subset ⟨2, 2, [[1, 0, 0, 0]], ⟨[1], [0]⟩⟩
    ⟨[(0, 0, 0), (1, 0, 0), (2, 0, 0), (5, 0, 0), (6, 0, 0)],
      [[1], [2], [3], [4], [5]], [0, 3, 5]⟩ (by decide) (by decide)
  simpa using h

/-! ### Grouping with explicit indices (C7) -/

/-- Claim C7: with a supplied NeighborIndex of valid global indices,
`queryandgroup` returns, for query `q` and its `t`-th neighbor `j`, the
relative position `points[j] - queries[q]` (3 channels) concatenated
ahead of the gathered feature `feat[j]` when `use_xyz`, and the gathered
feature alone otherwise; the result has one row per query, `nsample`
entries per row, and `3 + c` (resp. `c`) channels per entry.  The
embedding is a pure gather into fresh buffers, as is the source
(`grouped_xyz -= queries.unsqueeze(1)` mutates only the fresh gather). -/
theorem queryandgroup_gather_spec (nsample : ℕ) (points queries : List Q3)
    (feat : List (List ℚ)) (idx : List (List ℕ)) (prs qrs : List ℕ) (u : Bool)
    (c : ℕ) (hfp : feat.length = points.length)
    (hrect : ∀ r ∈ feat, r.length = c)
    (hql : idx.length = queries.length)
    (hrow : ∀ r ∈ idx, r.length = nsample)
    (hvalid : ∀ r ∈ idx, ∀ j ∈ r, j < points.length) :
    ∃ out, queryandgroup nsample points (some queries) feat (some idx) prs qrs u
        = some out ∧
      out.length = queries.length ∧
      (∀ q, q < queries.length → (out.getD q []).length = nsample) ∧
      ∀ q, q < queries.length → ∀ t, t < nsample →
        (out.getD q []).getD t []
          = (if u then
              [(points.getD ((idx.getD q []).getD t 0) (0, 0, 0)).1
                  - (queries.getD q (0, 0, 0)).1,
                (points.getD ((idx.getD q []).getD t 0) (0, 0, 0)).2.1
                  - (queries.getD q (0, 0, 0)).2.1,
                (points.getD ((idx.getD q []).getD t 0) (0, 0, 0)).2.2
                  - (queries.getD q (0, 0, 0)).2.2]
                ++ feat.getD ((idx.getD q []).getD t 0) []
            else feat.getD ((idx.getD q []).getD t 0) []) ∧
        ((out.getD q []).getD t []).length = if u then 3 + c else c := by
  refine ⟨_, rfl, ?_, ?_, ?_⟩
  · simp [List.length_zipWith, hql]
  · intro q hq
    rw [getD_zipWith _ _ _ q hq (by omega) (0, 0, 0) []]
    rw [List.length_map]
    exact hrow _ (getD_mem' idx q (by omega) [])
  · intro q hq t ht
    have hqi : q < idx.length := by omega
    have hmemrow : idx.getD q [] ∈ idx := getD_mem' idx q hqi []
    have htrow : t < (idx.getD q []).length := by
      rw [hrow _ hmemrow]; exact ht
    have hjval : (idx.getD q []).getD t 0 < points.length :=
      hvalid _ hmemrow _ (getD_mem' _ t htrow 0)
    rw [getD_zipWith _ _ _ q hq hqi (0, 0, 0) []]
    rw [getD_map _ _ t htrow 0]
    have hgf : (feat.getD ((idx.getD q []).getD t 0) []).length = c := by
      refine hrect _ (getD_mem' feat _ ?_ [])
      omega
    constructor
    · rfl
    · cases u
      · rw [if_neg (by simp), if_neg (by simp)]
        exact hgf
      · rw [if_pos rfl, if_pos rfl, List.length_append, hgf]
        rfl

/-- Witness for C7 at a concrete gather with explicit indices. -/
theorem queryandgroup_gather_spec_w :
    ∃ out, queryandgroup 2 [(0, 0, 0), (1, 2, 3), (4, 5, 6)]
        (some [(1, 1, 1), (2, 2, 2)]) [[7, 8], [9, 10], [11, 12]]
        (some [[0, 2], [1, 1]]) [0, 3] [0, 2] true = some out ∧
      out.length = 2 ∧
      (∀ q, q < 2 → (out.getD q []).length = 2) ∧
      ∀ q, q < 2 → ∀ t, t < 2 →
        (out.getD q []).getD t []
          = (if true then
              [(([(0, 0, 0), (1, 2, 3), (4, 5, 6)] :
                    List Q3).getD (([[0, 2], [1, 1]].getD q []).getD t 0)
                  (0, 0, 0)).1
                  - (([(1, 1, 1), (2, 2, 2)] : List Q3).getD q (0, 0, 0)).1,
                (([(0, 0, 0), (1, 2, 3), (4, 5, 6)] :
                    List Q3).getD (([[0, 2], [1, 1]].getD q []).getD t 0)
                  (0, 0, 0)).2.1
                  - (([(1, 1, 1), (2, 2, 2)] : List Q3).getD q (0, 0, 0)).2.1,
                (([(0, 0, 0), (1, 2, 3), (4, 5, 6)] :
                    List Q3).getD (([[0, 2], [1, 1]].getD q []).getD t 0)
                  (0, 0, 0)).2.2
                  - (([(1, 1, 1), (2, 2, 2)] : List Q3).getD q (0, 0, 0)).2.2]
                ++ ([[7, 8], [9, 10], [11, 12]] :
                  List (List ℚ)).getD (([[0, 2], [1, 1]].getD q []).getD t 0) []
            else ([[7, 8], [9, 10], [11, 12]] :
              List (List ℚ)).getD (([[0, 2], [1, 1]].getD q []).getD t 0) []) ∧
        ((out.getD q []).getD t []).length = if true then 3 + 2 else 2 := by
  have h := queryandgroup_gather_spec 2 [(0, 0, 0), (1, 2, 3), (4, 5, 6)]
    [(1, 1, 1), (2, 2, 2)] [[7, 8], [9, 10], [11, 12]] [[0, 2], [1, 1]]
    [0, 3] [0, 2] true 2 (by decide) (by decide) (by decide) (by decide)
    (by decide)
  simpa using h

/-! ### TransitionUp (single-input / decoder-head mode) -/

/-- Indexing into the flattened per-cloud blocks of a loop over
`range (g.length - 1)` whose block `t` has length
`g[t+1] - g[t]`. -/
theorem flatten_blocks_getD {α : Type} (g : List ℕ) (bf : ℕ → List α) (d : α)
    (h0 : g.getD 0 0 = 0)
    (hmono : ∀ t ∈ List.range (g.length - 1), g.getD t 0 ≤ g.getD (t + 1) 0)
    (hlen : ∀ t, t < g.length - 1 →
      (bf t).length = g.getD (t + 1) 0 - g.getD t 0)
    (i j : ℕ) (hi : i < g.length - 1)
    (hj : j < g.getD (i + 1) 0 - g.getD i 0) :
    (((List.range (g.length - 1)).map bf).flatten).getD (g.getD i 0 + j) d
      = (bf i).getD j d := by
  set blocks := (List.range (g.length - 1)).map bf with hblocks
  have hBi : blocks.getD i [] = bf i := by
    rw [hblocks]
    exact getD_range_map _ _ i (by omega) _
  have hjB : j < (blocks.getD i []).length := by
    rw [hBi, hlen i hi]
    exact hj
  have hoff : ((blocks.take i).map List.length).sum = g.getD i 0 := by
    have htk : blocks.take i = (List.range i).map bf := by
      rw [hblocks, ← List.map_take, List.take_range]
      have hmin : i ⊓ (g.length - 1) = i := by omega
      rw [hmin]
    rw [htk, List.map_map]
    have hcong : (List.range i).map (List.length ∘ bf)
        = (List.range i).map (fun t => g.getD (t + 1) 0 - g.getD t 0) := by
      refine List.map_congr_left ?_
      intro t ht
      have ht' := List.mem_range.mp ht
      simpa using hlen t (by omega)
    rw [hcong]
    exact sum_range_sub_telescope g h0 hmono i (by omega)
  conv_lhs => rw [← hoff]
  rw [getD_flatten blocks i j d hjB, hBi]

/-- Parameters of a `TransitionUp` module in single-input mode
(`out_planes=None`): `linear1 = Linear(2*in, in) → BatchNorm1d → ReLU`
and `linear2 = Linear(in, in) → ReLU`. -/
structure TUParams where
  lin1 : LinearP
  bn1 : AffineP
  lin2 : LinearP

/-- `feat_b.sum(0, True)`: the per-channel column sums of a cloud's
feature rows. -/
def colSum (rows : List (List ℚ)) : List ℚ :=
  rows.foldr (fun r acc => List.zipWith (· + ·) r acc)
    (List.replicate (rows.headD []).length 0)

/-- One iteration of the per-cloud loop of `TransitionUp.forward` in
single-input mode: slice `feat[start_i:end_i]`, compute the mean feature
(`sum(0, True) / count`), project it by `linear2`, and append it
(`torch.cat(..., 1)` after `repeat(count, 1)`) to every row of the
slice. -/
def tuBlock (P : TUParams) (feat : List (List ℚ)) (rs : List ℕ) (i : ℕ) :
    List (List ℚ) :=
  let feat_b := slice feat (rs.getD i 0) (rs.getD (i + 1) 0)
  let g := reluRow (applyLinear P.lin2
    ((colSum feat_b).map (fun v =>
      v / ((rs.getD (i + 1) 0 - rs.getD i 0 : ℕ) : ℚ))))
  feat_b.map (fun r => r ++ g)

/-- The single-input (`pxo2 is None`) branch of `TransitionUp.forward`
(point_transformer.py:463-476): the per-cloud blocks concatenated
(`torch.cat(feat_tmp, 0)`), then `linear1`
(`Linear → BatchNorm1d → ReLU`). -/
def tuForwardHead (P : TUParams) (pxo : Pxo) : List (List ℚ) :=
  (((List.range (pxo.rs.length - 1)).map (tuBlock P pxo.feat pxo.rs)).flatten).map
    (fun r => reluRow (affineRow P.bn1 (applyLinear P.lin1 r)))

theorem tuBlock_length (P : TUParams) (feat : List (List ℚ)) (rs : List ℕ)
    (i : ℕ) (hle : rs.getD i 0 ≤ rs.getD (i + 1) 0)
    (hleq : rs.getD (i + 1) 0 ≤ feat.length) :
    (tuBlock P feat rs i).length = rs.getD (i + 1) 0 - rs.getD i 0 := by
  simp only [tuBlock, List.length_map]
  exact length_slice _ _ _ hle hleq

theorem tuBlock_getD (P : TUParams) (feat : List (List ℚ)) (rs : List ℕ)
    (i t : ℕ) (ht : t < rs.getD (i + 1) 0 - rs.getD i 0)
    (hleq : rs.getD (i + 1) 0 ≤ feat.length) :
    (tuBlock P feat rs i).getD t []
      = (feat.getD (rs.getD i 0 + t) []) ++
        reluRow (applyLinear P.lin2
          ((colSum (slice feat (rs.getD i 0) (rs.getD (i + 1) 0))).map
            (fun v => v / ((rs.getD (i + 1) 0 - rs.getD i 0 : ℕ) : ℚ)))) := by
  simp only [tuBlock]
  have hlen : t < (slice feat (rs.getD i 0) (rs.getD (i + 1) 0)).length := by
    rw [length_slice _ _ _ (by omega) hleq]
    exact ht
  rw [getD_map _ _ t hlen []]
  rw [getD_slice feat _ _ t [] ht hleq]

theorem tuFlatten_length (P : TUParams) (feat : List (List ℚ)) (rs : List ℕ)
    (hval : validSplits rs feat.length) :
    (((List.range (rs.length - 1)).map (tuBlock P feat rs)).flatten).length
      = feat.length := by
  rw [List.length_flatten, List.map_map]
  have hb2 := hval.1
  have hcong : (List.range (rs.length - 1)).map
        (List.length ∘ tuBlock P feat rs)
      = (List.range (rs.length - 1)).map
        (fun t => rs.getD (t + 1) 0 - rs.getD t 0) := by
    refine List.map_congr_left ?_
    intro t ht
    have ht' := List.mem_range.mp ht
    have hle : rs.getD t 0 ≤ rs.getD (t + 1) 0 := hval.2.2.1 t ht
    have hleq : rs.getD (t + 1) 0 ≤ feat.length :=
      splits_le_n hval (t + 1) (by omega)
    simpa using tuBlock_length P feat rs t hle hleq
  rw [hcong, sum_range_sub_telescope rs hval.2.1 hval.2.2.1 (rs.length - 1)
    (by omega)]
  exact hval.2.2.2

/-- Claim C6: in single-input (decoder-head) mode, `TransitionUp` computes
each cloud's mean feature only over the rows in
`[RowSplits[i], RowSplits[i+1])`, projects it (`linear2`), appends the
projected mean to every row of that cloud, and projects the result
(`linear1`); the output has the same total length and row order as the
input — row `j` of the output is built from row `j` of the input and its
own cloud's mean. -/
theorem transition_up_head_mean (P : TUParams) (pxo : Pxo) (hv : pxoValid pxo) :
    (tuForwardHead P pxo).length = pxo.feat.length ∧
    ∀ i ∈ List.range (pxo.rs.length - 1), ∀ j, pxo.rs.getD i 0 ≤ j →
      j < pxo.rs.getD (i + 1) 0 →
      (tuForwardHead P pxo).getD j []
        = reluRow (affineRow P.bn1 (applyLinear P.lin1
            ((pxo.feat.getD j []) ++
             reluRow (applyLinear P.lin2
               ((colSum (slice pxo.feat (pxo.rs.getD i 0)
                   (pxo.rs.getD (i + 1) 0))).map
                 (fun v => v / ((pxo.rs.getD (i + 1) 0
                   - pxo.rs.getD i 0 : ℕ) : ℚ))))))) := by
  obtain ⟨pts, feat, rs⟩ := pxo
  simp only at hv ⊢
  have hval : validSplits rs feat.length := by
    have h := hv.2
    rwa [hv.1] at h
  have hb2 : 2 ≤ rs.length := hval.1
  constructor
  · simp only [tuForwardHead, List.length_map]
    exact tuFlatten_length P feat rs hval
  · intro i hi j hj1 hj2
    have hi' := List.mem_range.mp hi
    have hle : rs.getD i 0 ≤ rs.getD (i + 1) 0 := hval.2.2.1 i hi
    have hleq : rs.getD (i + 1) 0 ≤ feat.length :=
      splits_le_n hval (i + 1) (by omega)
    have hjlt : j < feat.length := by omega
    simp only [tuForwardHead]
    have hflat := tuFlatten_length P feat rs hval
    rw [getD_map _ _ j (by rw [hflat]; exact hjlt) []]
    have hsplit : j = rs.getD i 0 + (j - rs.getD i 0) := by omega
    rw [hsplit]
    rw [flatten_blocks_getD rs (tuBlock P feat rs) [] hval.2.1 hval.2.2.1
      (fun t htl => tuBlock_length P feat rs t
        (hval.2.2.1 t (List.mem_range.mpr htl))
        (splits_le_n hval (t + 1) (by omega)))
      i (j - rs.getD i 0) (by omega) (by omega)]
    rw [tuBlock_getD P feat rs i (j - rs.getD i 0) (by omega) hleq]

/-- Witness for C6 at a concrete two-cloud batch. -/
theorem transition_up_head_mean_w :
    (tuForwardHead ⟨⟨[[1, 0]], [0]⟩, ⟨[1], [0]⟩, ⟨[[2]], [1]⟩⟩
        ⟨[(0, 0, 0), (1, 0, 0), (2, 0, 0)], [[1], [2], [3]],
          [0, 2, 3]⟩).length = 3 ∧
    ∀ i ∈ List.range 2, ∀ j, [0, 2, 3].getD i 0 ≤ j →
      j < [0, 2, 3].getD (i + 1) 0 →
      (tuForwardHead ⟨⟨[[1, 0]], [0]⟩, ⟨[1], [0]⟩, ⟨[[2]], [1]⟩⟩
          ⟨[(0, 0, 0), (1, 0, 0), (2, 0, 0)], [[1], [2], [3]],
            [0, 2, 3]⟩).getD j []
        = reluRow (affineRow ⟨[1], [0]⟩ (applyLinear ⟨[[1, 0]], [0]⟩
            ((([[1], [2], [3]] : List (List ℚ)).getD j []) ++
             reluRow (applyLinear ⟨[[2]], [1]⟩
               ((colSum (slice ([[1], [2], [3]] : List (List ℚ))
                   ([0, 2, 3].getD i 0) ([0, 2, 3].getD (i + 1) 0))).map
                 (fun v => v / (([0, 2, 3].getD (i + 1) 0
                   - [0, 2, 3].getD i 0 : ℕ) : ℚ))))))) := by
  have h := transition_up_head_mean ⟨⟨[[1, 0]], [0]⟩, ⟨[1], [0]⟩, ⟨[[2]], [1]⟩⟩
    ⟨[(0, 0, 0), (1, 0, 0), (2, 0, 0)], [[1], [2], [3]], [0, 2, 3]⟩ (by decide)
  simpa using h

/-! ### Interpolation -/

/-- `dist_recip = 1.0 / (dist + 1e-8)` on one query's distance row (the
float literal `1e-8` read as the decimal `1/10^8`). -/
def distRecipRow (r : List ℚ) : List ℚ := r.map (fun d => 1 / (d + 1 / 100000000))

/-- `weight = dist_recip / norm` with `norm = sum(dist_recip, dim=1)`:
one query's inverse-distance weights, normalized across its neighbors. -/
def weightRowOf (r : List ℚ) : List ℚ :=
  (distRecipRow r).map (fun x => x / (distRecipRow r).sum)

/-- `interpolation` (point_transformer.py:590-621), with its fixed
`k = 3` (the `reshape(-1, 3)` hardcodes 3): batch-respecting 3-nearest
search, inverse-distance weights normalized per query, and the
accumulation loop `for i in range(k): new_feat += feat[idx[:, i]] *
weight[:, i]` starting from a zero buffer of shape
`(queries.shape[0], feat.shape[1])`. -/
def interpolation (points queries : List Q3) (feat : List (List ℚ))
    (prs qrs : List ℕ) : Option (List (List ℚ)) :=
  (knn_batch points queries 3 prs qrs).map (fun idxdist =>
    let idx := idxdist.1
    let weight := idxdist.2.map weightRowOf
    (List.range 3).foldl (fun new_feat i =>
        List.zipWith (fun accRow (pr : List ℕ × List ℚ) =>
            List.zipWith (· + ·) accRow
              ((feat.getD (pr.1.getD i 0) []).map (fun v => v * pr.2.getD i 0)))
          new_feat (idx.zip weight))
      (List.replicate queries.length
        (List.replicate (feat.getD 0 []).length 0)))

theorem sum_div_sum_eq_one (l : List ℚ) (h : l.sum ≠ 0) :
    (l.map (fun x => x / l.sum)).sum = 1 := by
  have h1 : (l.map (fun x => x * (l.sum)⁻¹)).sum = l.sum * (l.sum)⁻¹ := by
    simpa using List.sum_map_mul_right l id (l.sum)⁻¹
  have h2 : (fun x : ℚ => x / l.sum) = fun x => x * (l.sum)⁻¹ := by
    funext x
    rw [div_eq_mul_inv]
  rw [h2, h1, mul_inv_cancel₀ h]

/-- Claim C4: interpolation finds the 3 batch-respecting nearest source
points per query; the weight of neighbor `t` is `1/(distance_t + 1e-8)`
divided by the sum of the three reciprocal terms, so the three weights
sum to 1 exactly; and each query's output feature row is the weighted
sum of its three neighbors' source feature rows, giving an
`(n_query, c)` result. -/
theorem interpolation_weighted_sum (points queries : List Q3)
    (feat : List (List ℚ)) (prs qrs : List ℕ) (c : ℕ)
    (hb : prs.length = qrs.length)
    (hp : validSplits prs points.length)
    (hq : validSplits qrs queries.length)
    (hfl : feat.length = points.length)
    (hrect : ∀ r ∈ feat, r.length = c)
    (hc0 : (feat.getD 0 []).length = c)
    (hk3 : ∀ i ∈ List.range (prs.length - 1),
      3 ≤ prs.getD (i + 1) 0 - prs.getD i 0) :
    ∃ idx dist out, knn_batch points queries 3 prs qrs = some (idx, dist) ∧
      interpolation points queries feat prs qrs = some out ∧
      out.length = queries.length ∧
      ∀ i ∈ List.range (qrs.length - 1), ∀ q, qrs.getD i 0 ≤ q →
        q < qrs.getD (i + 1) 0 →
        (weightRowOf (dist.getD q [])).sum = 1 ∧
        out.getD q []
          = List.zipWith (· + ·) (List.zipWith (· + ·)
              ((feat.getD ((idx.getD q []).getD 0 0) []).map
                (fun v => v * (weightRowOf (dist.getD q [])).getD 0 0))
              ((feat.getD ((idx.getD q []).getD 1 0) []).map
                (fun v => v * (weightRowOf (dist.getD q [])).getD 1 0)))
              ((feat.getD ((idx.getD q []).getD 2 0) []).map
                (fun v => v * (weightRowOf (dist.getD q [])).getD 2 0)) ∧
        (out.getD q []).length = c := by
  have hsome : knn_batch points queries 3 prs qrs
      = some ((knnCore points queries 3 prs qrs).map (List.map Prod.fst),
              (knnCore points queries 3 prs qrs).map (List.map Prod.snd)) := by
    unfold knn_batch
    rw [if_pos hb]
  have hcorelen := knnCore_length points queries 3 prs qrs hb hq
  have hr3 : List.range 3 = [0, 1, 2] := rfl
  rcases ho : interpolation points queries feat prs qrs with _ | out
  · exfalso
    simp [interpolation, hsome] at ho
  refine ⟨_, _, out, hsome, rfl, ?_, ?_⟩
  all_goals
    simp only [interpolation, hsome, Option.map_some', Option.some.injEq] at ho
    subst ho
  · rw [hr3]
    simp only [List.foldl_cons, List.foldl_nil, List.length_zipWith,
      List.length_zip, List.length_map, List.length_replicate, hcorelen]
    omega
  · intro i hi q hq1 hq2
    have hi' := List.mem_range.mp hi
    have hql2 := hq.1
    have hq2' : q < queries.length := by
      have := splits_le_n hq (i + 1) (by omega)
      omega
    have hple : prs.getD i 0 ≤ prs.getD (i + 1) 0 := by
      refine hp.2.2.1 i ?_
      simp only [List.mem_range]
      omega
    have hpleq : prs.getD (i + 1) 0 ≤ points.length := by
      have := hp.1
      exact splits_le_n hp (i + 1) (by omega)
    have hclen : (slice points (prs.getD i 0) (prs.getD (i + 1) 0)).length
        = prs.getD (i + 1) 0 - prs.getD i 0 := length_slice _ _ _ hple hpleq
    have hc3 : 3 ≤ prs.getD (i + 1) 0 - prs.getD i 0 := by
      refine hk3 i ?_
      simp only [List.mem_range]
      omega
    have hcore := knnCore_getD points queries 3 prs qrs hb hq i
      (q - qrs.getD i 0) (by omega) (by omega)
    have hqsplit : qrs.getD i 0 + (q - qrs.getD i 0) = q := by omega
    rw [hqsplit] at hcore
    have hKlen : (knnOne (slice points (prs.getD i 0) (prs.getD (i + 1) 0))
        (queries.getD q (0, 0, 0)) 3).length = 3 := by
      rw [knnOne_length, hclen]
      omega
    have hIq : ((knnCore points queries 3 prs qrs).map
          (List.map Prod.fst)).getD q []
        = ((knnOne (slice points (prs.getD i 0) (prs.getD (i + 1) 0))
            (queries.getD q (0, 0, 0)) 3).map
          (fun pr => (pr.1 + prs.getD i 0, pr.2))).map Prod.fst := by
      rw [getD_map _ _ q (by rw [hcorelen]; exact hq2') [], hcore]
    have hDq : ((knnCore points queries 3 prs qrs).map
          (List.map Prod.snd)).getD q []
        = ((knnOne (slice points (prs.getD i 0) (prs.getD (i + 1) 0))
            (queries.getD q (0, 0, 0)) 3).map
          (fun pr => (pr.1 + prs.getD i 0, pr.2))).map Prod.snd := by
      rw [getD_map _ _ q (by rw [hcorelen]; exact hq2') [], hcore]
    have hDlen : (((knnCore points queries 3 prs qrs).map
        (List.map Prod.snd)).getD q []).length = 3 := by
      rw [hDq]
      simp only [List.length_map]
      exact hKlen
    have hDpos : ∀ d ∈ ((knnCore points queries 3 prs qrs).map
        (List.map Prod.snd)).getD q [], 0 ≤ d := by
      rw [hDq, List.map_map]
      intro d hd
      rcases List.mem_map.mp hd with ⟨pr, hpr, heq⟩
      rw [← heq]
      exact (knnOne_mem hpr).2
    have hrp : ∀ x ∈ distRecipRow (((knnCore points queries 3 prs qrs).map
        (List.map Prod.snd)).getD q []), 0 < x := by
      intro x hx
      rcases List.mem_map.mp hx with ⟨d, hd, rfl⟩
      have hd0 := hDpos d hd
      have h1 : (0 : ℚ) < d + 1 / 100000000 := by linarith
      exact div_pos one_pos h1
    have hrne : distRecipRow (((knnCore points queries 3 prs qrs).map
        (List.map Prod.snd)).getD q []) ≠ [] := by
      have hlen3 : (distRecipRow (((knnCore points queries 3 prs qrs).map
          (List.map Prod.snd)).getD q [])).length = 3 := by
        simp only [distRecipRow, List.length_map]
        exact hDlen
      intro h0
      rw [h0] at hlen3
      simp at hlen3
    have hSpos : 0 < (distRecipRow (((knnCore points queries 3 prs qrs).map
        (List.map Prod.snd)).getD q [])).sum := List.sum_pos _ hrp hrne
    have hwsum : (weightRowOf (((knnCore points queries 3 prs qrs).map
        (List.map Prod.snd)).getD q [])).sum = 1 :=
      sum_div_sum_eq_one _ (ne_of_gt hSpos)
    have hIrowlen : (((knnCore points queries 3 prs qrs).map
        (List.map Prod.fst)).getD q []).length = 3 := by
      rw [hIq]
      simp only [List.length_map]
      exact hKlen
    have hIbound : ∀ t, t < 3 →
        (((knnCore points queries 3 prs qrs).map
          (List.map Prod.fst)).getD q []).getD t 0 < feat.length := by
      intro t ht
      rw [hfl, hIq, List.map_map]
      rw [getD_map (Prod.fst ∘ fun pr : ℕ × ℚ => (pr.1 + prs.getD i 0, pr.2))
        _ t (by rw [hKlen]; exact ht) ((0, 0) : ℕ × ℚ)]
      have hmem := getD_mem'
        (knnOne (slice points (prs.getD i 0) (prs.getD (i + 1) 0))
          (queries.getD q (0, 0, 0)) 3) t (by rw [hKlen]; exact ht)
        ((0, 0) : ℕ × ℚ)
      have hb1 := (knnOne_mem hmem).1
      rw [hclen] at hb1
      show ((knnOne (slice points (prs.getD i 0) (prs.getD (i + 1) 0))
          (queries.getD q (0, 0, 0)) 3).getD t ((0, 0) : ℕ × ℚ)).1
        + prs.getD i 0 < points.length
      omega
    have hglen : ∀ t, t < 3 →
        ((feat.getD ((((knnCore points queries 3 prs qrs).map
            (List.map Prod.fst)).getD q []).getD t 0) []).map
          (fun v => v * ((((knnCore points queries 3 prs qrs).map
            (List.map Prod.snd)).map weightRowOf).getD q []).getD t 0)).length
        = c := by
      intro t ht
      rw [List.length_map]
      exact hrect _ (getD_mem' feat _ (hIbound t ht) [])
    have hWq : (((knnCore points queries 3 prs qrs).map
          (List.map Prod.snd)).map weightRowOf).getD q []
        = weightRowOf (((knnCore points queries 3 prs qrs).map
          (List.map Prod.snd)).getD q []) := by
      rw [getD_map _ _ q (by simp [hcorelen]; omega) []]
    have hZlen : (((knnCore points queries 3 prs qrs).map
          (List.map Prod.fst)).zip
        (((knnCore points queries 3 prs qrs).map
          (List.map Prod.snd)).map weightRowOf)).length
        = queries.length := by
      simp [List.length_zip, hcorelen]
    have hZq : (((knnCore points queries 3 prs qrs).map
          (List.map Prod.fst)).zip
        (((knnCore points queries 3 prs qrs).map
          (List.map Prod.snd)).map weightRowOf)).getD q ([], [])
        = (((knnCore points queries 3 prs qrs).map
            (List.map Prod.fst)).getD q [],
           (((knnCore points queries 3 prs qrs).map
            (List.map Prod.snd)).map weightRowOf).getD q []) :=
      getD_zipWith Prod.mk _ _ q (by simp [hcorelen]; omega)
        (by simp [hcorelen]; omega) [] [] ([], [])
    have hstep : ∀ (t : ℕ) (acc : List (List ℚ)), q < acc.length →
        (List.zipWith (fun accRow (pr : List ℕ × List ℚ) =>
            List.zipWith (· + ·) accRow
              ((feat.getD (pr.1.getD t 0) []).map
                (fun v => v * pr.2.getD t 0)))
          acc (((knnCore points queries 3 prs qrs).map
              (List.map Prod.fst)).zip
            (((knnCore points queries 3 prs qrs).map
              (List.map Prod.snd)).map weightRowOf))).getD q []
          = List.zipWith (· + ·) (acc.getD q [])
            ((feat.getD ((((knnCore points queries 3 prs qrs).map
                (List.map Prod.fst)).getD q []).getD t 0) []).map
              (fun v => v * ((((knnCore points queries 3 prs qrs).map
                (List.map Prod.snd)).map weightRowOf).getD q []).getD t 0)) := by
      intro t acc hacc
      rw [getD_zipWith _ acc _ q hacc (by rw [hZlen]; exact hq2') [] ([], []) []]
      rw [hZq]
    refine ⟨hwsum, ?_, ?_⟩
    · rw [hr3]
      simp only [List.foldl_cons, List.foldl_nil]
      rw [hstep 2 _ (by
          simp only [List.length_zipWith, List.length_replicate, hZlen]
          omega),
        hstep 1 _ (by
          simp only [List.length_zipWith, List.length_replicate, hZlen]
          omega),
        hstep 0 _ (by simp only [List.length_replicate]; exact hq2')]
      rw [getD_replicate' _ _ hq2' _ _, hc0]
      rw [zipWith_replicate_zero_add c _ (hglen 0 (by omega))]
      rw [hWq]
    · rw [hr3]
      simp only [List.foldl_cons, List.foldl_nil]
      rw [hstep 2 _ (by
          simp only [List.length_zipWith, List.length_replicate, hZlen]
          omega),
        hstep 1 _ (by
          simp only [List.length_zipWith, List.length_replicate, hZlen]
          omega),
        hstep 0 _ (by simp only [List.length_replicate]; exact hq2')]
      rw [getD_replicate' _ _ hq2' _ _, hc0]
      rw [zipWith_replicate_zero_add c _ (hglen 0 (by omega))]
      simp only [List.length_zipWith, hglen 0 (by omega), hglen 1 (by omega),
        hglen 2 (by omega)]
      omega

/-- Witness for C4 at a single cloud of three source points and one
query. -/
theorem interpolation_weighted_sum_w :
    ∃ idx dist out, knn_batch [(0, 0, 0), (1, 0, 0), (2, 0, 0)] [(0, 0, 0)] 3
        [0, 3] [0, 1] = some (idx, dist) ∧
      interpolation [(0, 0, 0), (1, 0, 0), (2, 0, 0)] [(0, 0, 0)]
        [[1], [2], [4]] [0, 3] [0, 1] = some out ∧
      out.length = 1 ∧
      ∀ i ∈ List.range 1, ∀ q, [0, 1].getD i 0 ≤ q →
        q < [0, 1].getD (i + 1) 0 →
        (weightRowOf (dist.getD q [])).sum = 1 ∧
        out.getD q []
          = List.zipWith (· + ·) (List.zipWith (· + ·)
              ((([[1], [2], [4]] : List (List ℚ)).getD
                  ((idx.getD q []).getD 0 0) []).map
                (fun v => v * (weightRowOf (dist.getD q [])).getD 0 0))
              ((([[1], [2], [4]] : List (List ℚ)).getD
                  ((idx.getD q []).getD 1 0) []).map
                (fun v => v * (weightRowOf (dist.getD q [])).getD 1 0)))
              ((([[1], [2], [4]] : List (List ℚ)).getD
                  ((idx.getD q []).getD 2 0) []).map
                (fun v => v * (weightRowOf (dist.getD q [])).getD 2 0)) ∧
        (out.getD q []).length = 1 := by
  have h := interpolation_weighted_sum [(0, 0, 0), (1, 0, 0), (2, 0, 0)]
    [(0, 0, 0)] [[1], [2], [4]] [0, 3] [0, 1] 1 (by decide) (by decide)
    (by decide) (by decide) (by decide) (by decide) (by decide)
  simpa using h

/-! ### VectorAttention (Transformer) -/

/-- A `view(..., s, g)` reshape of the last dimension: split a row into
consecutive chunks of `g` entries. -/
def chunksOf (g : ℕ) (l : List ℚ) : List (List ℚ) :=
  (List.range (l.length / g)).map (fun t => (l.drop (g * t)).take g)

/-- `.sum` over a chunked dimension: elementwise sum of the chunks into a
zero row of width `d`. -/
def sumRows (d : ℕ) (rows : List (List ℚ)) : List ℚ :=
  rows.foldr (fun r acc => List.zipWith (· + ·) r acc) (List.replicate d 0)

/-- `.sum(1)` over the neighbor dimension of per-neighbor `(s, cs)`
matrices: elementwise sum into a zero matrix. -/
def sumMats (s cs : ℕ) (mats : List (List (List ℚ))) : List (List ℚ) :=
  mats.foldr
    (fun a b => List.zipWith (fun ar br => List.zipWith (· + ·) ar br) a b)
    (List.replicate s (List.replicate cs 0))

/-- One channel's softmax across the neighbor dimension; `qe` is the
exponential map (a parameter of the embedding, see the header note). -/
def softmaxRow (qe : ℚ → ℚ) (v : List ℚ) : List ℚ :=
  (v.map qe).map (fun x => x / (v.map qe).sum)

/-- `nn.Softmax(dim=1)` on one sample of a `(n, nsample, d)` tensor:
normalize each channel across the neighbor dimension. -/
def softmaxDim1 (qe : ℚ → ℚ) (nrows ncols : ℕ) (M : List (List ℚ)) :
    List (List ℚ) :=
  transposeMat nrows ((transposeMat ncols M).map (softmaxRow qe))

theorem mem_zipWith' {α β γ : Type} {f : α → β → γ} {A : List α} {B : List β}
    {x : γ} (h : x ∈ List.zipWith f A B) : ∃ a ∈ A, ∃ b ∈ B, x = f a b := by
  induction A generalizing B with
  | nil => simp at h
  | cons a tA ih =>
    cases B with
    | nil => simp at h
    | cons b tB =>
      rcases List.mem_cons.mp h with rfl | hmem
      · exact ⟨a, by simp, b, by simp, rfl⟩
      · rcases ih hmem with ⟨a', ha', b', hb', rfl⟩
        exact ⟨a', by simp [ha'], b', by simp [hb'], rfl⟩

theorem chunksOf_shape (g : ℕ) (hg : 0 < g) (l : List ℚ) (s : ℕ)
    (hl : l.length = g * s) :
    (chunksOf g l).length = s ∧ ∀ ch ∈ chunksOf g l, ch.length = g := by
  constructor
  · simp only [chunksOf, List.length_map, List.length_range, hl]
    exact Nat.mul_div_cancel_left s hg
  · intro ch hch
    simp only [chunksOf] at hch
    rcases List.mem_map.mp hch with ⟨t, ht, rfl⟩
    have ht' : t < s := by
      have := List.mem_range.mp ht
      rwa [hl, Nat.mul_div_cancel_left s hg] at this
    have h1 : g * t + g ≤ g * s := by
      rw [← Nat.mul_succ]
      exact Nat.mul_le_mul_left g (by omega)
    rw [List.length_take, List.length_drop, hl]
    omega

theorem sumMats_shape (s cs : ℕ) (mats : List (List (List ℚ)))
    (h : ∀ m ∈ mats, m.length = s ∧ ∀ r ∈ m, r.length = cs) :
    (sumMats s cs mats).length = s ∧
      ∀ r ∈ sumMats s cs mats, r.length = cs := by
  induction mats with
  | nil =>
    constructor
    · simp [sumMats]
    · intro r hr
      simp only [sumMats, List.foldr_nil] at hr
      rw [List.eq_of_mem_replicate hr]
      simp
  | cons a t ih =>
    obtain ⟨ha1, ha2⟩ := h a (by simp)
    obtain ⟨ih1, ih2⟩ := ih (fun m hm => h m (by simp [hm]))
    constructor
    · simp only [sumMats, List.foldr_cons, List.length_zipWith]
      simp only [sumMats] at ih1
      rw [ha1, ih1]
      omega
    · intro r hr
      simp only [sumMats, List.foldr_cons] at hr
      rcases mem_zipWith' hr with ⟨ar, har, br, hbr, rfl⟩
      rw [List.length_zipWith, ha2 ar har]
      have hb := ih2 br (by simpa [sumMats] using hbr)
      rw [hb]
      omega

theorem softmaxDim1_shape (qe : ℚ → ℚ) (nrows ncols : ℕ) (M : List (List ℚ)) :
    (softmaxDim1 qe nrows ncols M).length = nrows ∧
      ∀ r ∈ softmaxDim1 qe nrows ncols M, r.length = ncols := by
  constructor
  · simp [softmaxDim1, transposeMat]
  · intro r hr
    simp only [softmaxDim1, transposeMat] at hr
    rcases List.mem_map.mp hr with ⟨j, _, rfl⟩
    simp

theorem sum_map_length_const {α : Type} (M : List (List α)) (cs : ℕ)
    (h : ∀ r ∈ M, r.length = cs) : (M.map List.length).sum = M.length * cs := by
  induction M with
  | nil => simp
  | cons a t ih =>
    simp only [List.map_cons, List.sum_cons, List.length_cons]
    rw [h a (by simp), ih (fun r hr => h r (by simp [hr])), Nat.succ_mul]
    omega

/-- Every global index produced by the batched search is a valid index
into the concatenated source points. -/
theorem knnCore_globals_lt (points queries : List Q3) (k : ℕ)
    (prs qrs : List ℕ) (hp : validSplits prs points.length) :
    ∀ row ∈ (knnCore points queries k prs qrs).map (List.map Prod.fst),
      ∀ j ∈ row, j < points.length := by
  intro row hrow j hj
  rcases List.mem_map.mp hrow with ⟨prrow, hprrow, rfl⟩
  rcases List.mem_flatten.mp hprrow with ⟨bl, hbl, hrowbl⟩
  rcases List.mem_map.mp hbl with ⟨i, hi, rfl⟩
  unfold knnBlock at hrowbl
  rcases List.mem_map.mp hrowbl with ⟨qq, _, rfl⟩
  rw [List.map_map] at hj
  rcases List.mem_map.mp hj with ⟨pr, hpr, rfl⟩
  have hi' := List.mem_range.mp hi
  have hp2 := hp.1
  have hple : prs.getD i 0 ≤ prs.getD (i + 1) 0 := by
    refine hp.2.2.1 i ?_
    simp only [List.mem_range]
    omega
  have hpleq : prs.getD (i + 1) 0 ≤ points.length :=
    splits_le_n hp (i + 1) (by omega)
  have hb1 := (knnOne_mem hpr).1
  rw [length_slice _ _ _ hple hpleq] at hb1
  show pr.1 + prs.getD i 0 < points.length
  omega

/-- Parameters of a `Transformer` (vector attention) module.  The source
sets `mid_planes = out_planes // 1`, so `out_planes` plays both roles.
`linear_p = [Linear(3, 3), BatchNorm1d(3), ReLU, Linear(3, out_planes)]`
and `linear_w = [BatchNorm1d(mid), ReLU, Linear(mid, mid //
share_planes), BatchNorm1d(mid // share_planes), ReLU,
Linear(out // share_planes, out // share_planes)]`; `qexp` is the
softmax exponential (a parameter of the embedding, see the header
note). -/
structure TransformerP where
  out_planes : ℕ
  share_planes : ℕ
  nsample : ℕ
  linear_q : LinearP
  linear_k : LinearP
  linear_v : LinearP
  lp_lin1 : LinearP
  lp_bn : AffineP
  lp_lin2 : LinearP
  lw_bn1 : AffineP
  lw_lin1 : LinearP
  lw_bn2 : AffineP
  lw_lin2 : LinearP
  qexp : ℚ → ℚ

/-- `Transformer.forward` (point_transformer.py:354-395): project to
query/key/value, group key (with relative positions) and value over each
point's `nsample`-neighborhood, run the positional encoding `linear_p`
(its BatchNorm1d conjugated by `transpose(1, 2)`), form the attention
logits `feat_k - feat_q.unsqueeze(1) + point_r.view(n, nsample,
out_planes // mid_planes, mid_planes).sum(2)`, run `linear_w` (its two
BatchNorm1d layers conjugated by `transpose(1, 2)`), softmax over the
neighbor dimension, and aggregate `((feat_v + point_r).view(n, nsample,
share_planes, c // share_planes) * w.unsqueeze(2)).sum(1).view(n, c)`. -/
def transformerForward (P : TransformerP) (pxo : Pxo) :
    Option (List (List ℚ)) :=
  let feat_q := pxo.feat.map (applyLinear P.linear_q)
  let feat_k0 := pxo.feat.map (applyLinear P.linear_k)
  let feat_v0 := pxo.feat.map (applyLinear P.linear_v)
  match queryandgroup P.nsample pxo.point (some pxo.point) feat_k0 none
      pxo.rs pxo.rs true with
  | none => none
  | some feat_kG =>
    match queryandgroup P.nsample pxo.point (some pxo.point) feat_v0 none
        pxo.rs pxo.rs false with
    | none => none
    | some feat_v =>
      let feat_k := feat_kG.map (fun rows => rows.map (fun r => r.drop 3))
      let pr1 := (feat_kG.map (fun rows => rows.map (fun r => r.take 3))).map
        (fun rows => rows.map (applyLinear P.lp_lin1))
      let pr2 := ((pr1.map (transposeMat 3)).map (bnChan P.lp_bn)).map
        (transposeMat P.nsample)
      let pr3 := pr2.map (fun rows => rows.map reluRow)
      let point_r := pr3.map (fun rows => rows.map (applyLinear P.lp_lin2))
      let prSum := point_r.map (fun rows => rows.map
        (fun r => sumRows P.out_planes (chunksOf P.out_planes r)))
      let w0 := List.zipWith (fun (kp : List (List ℚ) × List (List ℚ)) fq =>
          List.zipWith (fun kr pr => List.zipWith (· + ·)
            (List.zipWith (· - ·) kr fq) pr) kp.1 kp.2)
        (feat_k.zip prSum) feat_q
      let w1 := ((w0.map (transposeMat P.out_planes)).map (bnChan P.lw_bn1)).map
        (transposeMat P.nsample)
      let w2 := w1.map (fun rows => rows.map reluRow)
      let w3 := w2.map (fun rows => rows.map (applyLinear P.lw_lin1))
      let w4 := ((w3.map (transposeMat (P.out_planes / P.share_planes))).map
        (bnChan P.lw_bn2)).map (transposeMat P.nsample)
      let w5 := w4.map (fun rows => rows.map reluRow)
      let w6 := w5.map (fun rows => rows.map (applyLinear P.lw_lin2))
      let w := w6.map
        (softmaxDim1 P.qexp P.nsample (P.out_planes / P.share_planes))
      some (List.zipWith (fun (vp : List (List ℚ) × List (List ℚ)) wq =>
          (sumMats P.share_planes (P.out_planes / P.share_planes)
            (List.zipWith (fun (vr : List ℚ × List ℚ) wr =>
                (chunksOf (P.out_planes / P.share_planes)
                  (List.zipWith (· + ·) vr.1 vr.2)).map
                  (fun ch => List.zipWith (· * ·) ch wr))
              (vp.1.zip vp.2) wq)).flatten)
        (feat_v.zip point_r) w)

/-- Shape of the `Transformer.forward` output: one row per input feature
row, each of the configured output width. -/
theorem transformer_shape (P : TransformerP) (pxo : Pxo) (hv : pxoValid pxo)
    (hvwf : wfLinear P.linear_v P.out_planes)
    (hlp2wf : wfLinear P.lp_lin2 P.out_planes)
    (hs : 0 < P.share_planes) (hdvd : P.share_planes ∣ P.out_planes)
    (hc : 0 < P.out_planes) :
    ∃ out, transformerForward P pxo = some out ∧
      out.length = pxo.feat.length ∧ ∀ r ∈ out, r.length = P.out_planes := by
  obtain ⟨pts, feat, rs⟩ := pxo
  simp only at hv ⊢
  have hval : validSplits rs pts.length := hv.2
  have hpf : pts.length = feat.length := hv.1
  have hqgk := qg_some P.nsample pts pts (feat.map (applyLinear P.linear_k))
    rs rs true rfl
  have hqgv := qg_some P.nsample pts pts (feat.map (applyLinear P.linear_v))
    rs rs false rfl
  have hkcore : (knnCore pts pts P.nsample rs rs).length = pts.length :=
    knnCore_length pts pts P.nsample rs rs rfl hval
  rcases hout : transformerForward P ⟨pts, feat, rs⟩ with _ | out
  · exfalso
    simp only [transformerForward, hqgk, hqgv] at hout
    exact Option.noConfusion hout
  refine ⟨out, rfl, ?_, ?_⟩
  all_goals
    simp only [transformerForward, hqgk, hqgv, Option.some.injEq] at hout
    subst hout
  · simp only [List.length_zipWith, List.length_zip, List.length_map,
      hkcore, hpf]
    omega
  · intro r hr
    rcases mem_zipWith' hr with ⟨⟨vp1, vp2⟩, hvp, wq, hwq, rfl⟩
    have hvzp := List.of_mem_zip hvp
    have hcspos : 0 < P.out_planes / P.share_planes :=
      Nat.div_pos (Nat.le_of_dvd hc hdvd) hs
    have hcc : P.out_planes
        = P.share_planes * (P.out_planes / P.share_planes) :=
      (Nat.mul_div_cancel' hdvd).symm
    have hwql : ∀ wr ∈ wq, wr.length = P.out_planes / P.share_planes := by
      rcases List.mem_map.mp hwq with ⟨M, _, rfl⟩
      exact (softmaxDim1_shape P.qexp P.nsample
        (P.out_planes / P.share_planes) M).2
    have hva : ∀ va ∈ vp1, va.length = P.out_planes := by
      intro va hva0
      rcases mem_zipWith' hvzp.1 with ⟨qq, _, nbrs, hnbrs, rfl⟩
      rcases List.mem_map.mp hva0 with ⟨j, hj, rfl⟩
      have hjlt : j < pts.length :=
        knnCore_globals_lt pts pts P.nsample rs rs hval nbrs hnbrs j hj
      show ((feat.map (applyLinear P.linear_v)).getD j []).length
        = P.out_planes
      have hjf : j < (feat.map (applyLinear P.linear_v)).length := by
        rw [List.length_map]
        omega
      have hmem := getD_mem' (feat.map (applyLinear P.linear_v)) j hjf []
      rcases List.mem_map.mp hmem with ⟨x, _, heq⟩
      rw [← heq]
      exact length_applyLinear P.linear_v x P.out_planes hvwf
    have hvb : ∀ vb ∈ vp2, vb.length = P.out_planes := by
      intro vb hvb0
      rcases List.mem_map.mp hvzp.2 with ⟨rows, _, rfl⟩
      rcases List.mem_map.mp hvb0 with ⟨x, _, rfl⟩
      exact length_applyLinear P.lp_lin2 x P.out_planes hlp2wf
    have hmats : ∀ m ∈ List.zipWith (fun (vr : List ℚ × List ℚ) wr =>
        (chunksOf (P.out_planes / P.share_planes)
          (List.zipWith (· + ·) vr.1 vr.2)).map
          (fun ch => List.zipWith (· * ·) ch wr)) (vp1.zip vp2) wq,
        m.length = P.share_planes ∧
          ∀ row ∈ m, row.length = P.out_planes / P.share_planes := by
      intro m hm
      rcases mem_zipWith' hm with ⟨⟨va, vb⟩, hvr, wr, hwr, rfl⟩
      have hvz := List.of_mem_zip hvr
      have hsumlen : (List.zipWith (· + ·) va vb).length
          = P.out_planes / P.share_planes * P.share_planes := by
        rw [List.length_zipWith, hva va hvz.1, hvb vb hvz.2, min_self]
        exact (Nat.div_mul_cancel hdvd).symm
      obtain ⟨hch1, hch2⟩ := chunksOf_shape (P.out_planes / P.share_planes)
        hcspos (List.zipWith (· + ·) va vb) P.share_planes hsumlen
      constructor
      · rw [List.length_map]
        exact hch1
      · intro row hrow
        rcases List.mem_map.mp hrow with ⟨ch, hch, rfl⟩
        rw [List.length_zipWith, hch2 ch hch, hwql wr hwr]
        omega
    obtain ⟨hsl, hsr⟩ := sumMats_shape P.share_planes
      (P.out_planes / P.share_planes) _ hmats
    rw [List.length_flatten, sum_map_length_const _ _ hsr, hsl]
    exact hcc.symm

/-- Counterexample to claim C5 as stated: with configured input width 1
and output width 2 (`share_planes = 1` divides 2), on a valid one-point
PXO whose feature row has the input width 1, the attention output row
has width 2 — the configured output width — and not "the same ...
channel count as the input features".  The row-count and
configured-width parts of the claim do hold (see the amended
theorem). -/
theorem transformer_channel_cex :
    ∃ out, transformerForward
        ⟨2, 1, 1, ⟨[[1], [0]], [0, 0]⟩, ⟨[[1], [0]], [0, 0]⟩,
          ⟨[[1], [0]], [0, 0]⟩, ⟨[[1, 0, 0], [0, 1, 0], [0, 0, 1]], [0, 0, 0]⟩,
          ⟨[1, 1, 1], [0, 0, 0]⟩, ⟨[[1, 0, 0], [0, 1, 0]], [0, 0]⟩,
          ⟨[1, 1], [0, 0]⟩, ⟨[[1, 0], [0, 1]], [0, 0]⟩, ⟨[1, 1], [0, 0]⟩,
          ⟨[[1, 0], [0, 1]], [0, 0]⟩, fun x => 1⟩
        ⟨[(0, 0, 0)], [[5]], [0, 1]⟩ = some out ∧
      out.length = 1 ∧ (out.getD 0 []).length = 2 ∧
      (([[5]] : List (List ℚ)).getD 0 []).length = 1 := by
  obtain ⟨out, heq, hlen, hwid⟩ := transformer_shape
    ⟨2, 1, 1, ⟨[[1], [0]], [0, 0]⟩, ⟨[[1], [0]], [0, 0]⟩,
      ⟨[[1], [0]], [0, 0]⟩, ⟨[[1, 0, 0], [0, 1, 0], [0, 0, 1]], [0, 0, 0]⟩,
      ⟨[1, 1, 1], [0, 0, 0]⟩, ⟨[[1, 0, 0], [0, 1, 0]], [0, 0]⟩,
      ⟨[1, 1], [0, 0]⟩, ⟨[[1, 0], [0, 1]], [0, 0]⟩, ⟨[1, 1], [0, 0]⟩,
      ⟨[[1, 0], [0, 1]], [0, 0]⟩, fun x => 1⟩
    ⟨[(0, 0, 0)], [[5]], [0, 1]⟩ (by decide) (by decide) (by decide)
    (by decide) (by decide) (by decide)
  have hlen1 : out.length = 1 := by simpa using hlen
  refine ⟨out, heq, hlen1, ?_, by decide⟩
  exact hwid _ (getD_mem' out 0 (by omega) [])

/-- Claim C5 (amended): for every valid PXO input whose clouds each have
at least `nsample` points, the VectorAttention output has exactly one
row per input feature row, and every output row has the configured
output width `out_planes` (which coincides with the input channel count
exactly when the configured input and output widths agree, as in every
instantiation in this network), for every `nsample` and every channel
configuration with `out_planes` divisible by `share_planes`. -/
theorem transformer_output_shape (P : TransformerP) (pxo : Pxo)
    (hv : pxoValid pxo)
    (hvwf : wfLinear P.linear_v P.out_planes)
    (hlp2wf : wfLinear P.lp_lin2 P.out_planes)
    (hs : 0 < P.share_planes) (hdvd : P.share_planes ∣ P.out_planes)
    (hc : 0 < P.out_planes) (hns : 1 ≤ P.nsample)
    (hcloud : ∀ i ∈ List.range (pxo.rs.length - 1),
      P.nsample ≤ pxo.rs.getD (i + 1) 0 - pxo.rs.getD i 0) :
    ∃ out, transformerForward P pxo = some out ∧
      out.length = pxo.feat.length ∧ ∀ r ∈ out, r.length = P.out_planes :=
  transformer_shape P pxo hv hvwf hlp2wf hs hdvd hc

/-- Witness for the amended C5 at a one-point cloud with matching input
and output widths. -/
theorem transformer_output_shape_w :
    ∃ out, transformerForward
        ⟨2, 2, 1, ⟨[[1, 0], [0, 1]], [0, 0]⟩, ⟨[[1, 0], [0, 1]], [0, 0]⟩,
          ⟨[[1, 0], [0, 1]], [0, 0]⟩,
          ⟨[[1, 0, 0], [0, 1, 0], [0, 0, 1]], [0, 0, 0]⟩,
          ⟨[1, 1, 1], [0, 0, 0]⟩, ⟨[[1, 0, 0], [0, 1, 0]], [0, 0]⟩,
          ⟨[1, 1], [0, 0]⟩, ⟨[[1, 0]], [0]⟩, ⟨[1], [0]⟩,
          ⟨[[1]], [0]⟩, fun x => 1⟩
        ⟨[(0, 0, 0)], [[5, 7]], [0, 1]⟩ = some out ∧
      out.length = 1 ∧ ∀ r ∈ out, r.length = 2 := by
  have h := transformer_output_shape
    ⟨2, 2, 1, ⟨[[1, 0], [0, 1]], [0, 0]⟩, ⟨[[1, 0], [0, 1]], [0, 0]⟩,
      ⟨[[1, 0], [0, 1]], [0, 0]⟩,
      ⟨[[1, 0, 0], [0, 1, 0], [0, 0, 1]], [0, 0, 0]⟩,
      ⟨[1, 1, 1], [0, 0, 0]⟩, ⟨[[1, 0, 0], [0, 1, 0]], [0, 0]⟩,
      ⟨[1, 1], [0, 0]⟩, ⟨[[1, 0]], [0]⟩, ⟨[1], [0]⟩,
      ⟨[[1]], [0]⟩, fun x => 1⟩
    ⟨[(0, 0, 0)], [[5, 7]], [0, 1]⟩ (by decide) (by decide) (by decide)
    (by decide) (by decide) (by decide) (by decide) (by decide)
  simpa using h

/-! ### ResidualAttentionBlock (Bottleneck) -/

/-- Parameters of a `Bottleneck` block (`expansion = 1`): the channel
reduction `linear1` (`bias=False`) with `bn1`, the inner `Transformer`,
`bn2`, the expansion `linear3` (`bias=False`) with `bn3`. -/
structure BottleneckP where
  tp : TransformerP
  lin1 : List (List ℚ)
  bn1 : AffineP
  bn2 : AffineP
  lin3 : List (List ℚ)
  bn3 : AffineP

/-- `Bottleneck.forward` (point_transformer.py:499-507):
`relu(bn1(linear1(feat)))`, then `relu(bn2(transformer2(...)))`, then
`bn3(linear3(feat))`, the residual `feat += identity`, and a final ReLU;
points and row splits pass through unchanged. -/
def bottleneckForward (P : BottleneckP) (pxo : Pxo) : Option Pxo :=
  match transformerForward P.tp ⟨pxo.point,
      pxo.feat.map (fun r => reluRow (affineRow P.bn1 (linearNB P.lin1 r))),
      pxo.rs⟩ with
  | none => none
  | some f2 =>
    let f3 := f2.map (fun r => reluRow (affineRow P.bn2 r))
    let f4 := f3.map (fun r => affineRow P.bn3 (linearNB P.lin3 r))
    let f5 := List.zipWith (fun r idr => List.zipWith (· + ·) r idr) f4 pxo.feat
    some ⟨pxo.point, f5.map reluRow, pxo.rs⟩

/-- Claim C2: each PXO-producing component — `TransitionDown` on both its
`stride == 1` and `stride > 1` paths, and the residual attention block
(`Bottleneck`) — maps a valid PXO triple to an output again satisfying
`point.length == feature.length == RowSplits[-1]`, the two buffers
sharing the same row-splits instance (hence the same cloud
boundaries). -/
theorem pxo_invariant_components (P1 P2 : TDParams) (PB : BottleneckP)
    (pxo1 pxo2 pxo3 : Pxo)
    (hv1 : pxoValid pxo1) (hv2 : pxoValid pxo2) (hv3 : pxoValid pxo3)
    (h1 : P1.stride = 1) (h2 : 2 ≤ P2.stride)
    (hvwf : wfLinear PB.tp.linear_v PB.tp.out_planes)
    (hlp2wf : wfLinear PB.tp.lp_lin2 PB.tp.out_planes)
    (hs : 0 < PB.tp.share_planes)
    (hdvd : PB.tp.share_planes ∣ PB.tp.out_planes)
    (hc : 0 < PB.tp.out_planes) :
    (∃ p1, tdForward P1 pxo1 = some p1 ∧
      p1.point.length = p1.feat.length ∧ p1.feat.length = lastD p1.rs) ∧
    (∃ p2, tdForward P2 pxo2 = some p2 ∧
      p2.point.length = p2.feat.length ∧ p2.feat.length = lastD p2.rs) ∧
    (∃ p3, bottleneckForward PB pxo3 = some p3 ∧
      p3.point.length = p3.feat.length ∧ p3.feat.length = lastD p3.rs) := by
  refine ⟨?_, ?_, ?_⟩
  · refine ⟨⟨pxo1.point,
      pxo1.feat.map (fun r => reluRow (affineRow P1.bn (linearNB P1.linW r))),
      pxo1.rs⟩, ?_, ?_, ?_⟩
    · unfold tdForward
      split
      · next hcond => exact absurd h1 hcond
      · rfl
    · simp only [List.length_map]
      exact hv1.1
    · simp only [List.length_map]
      rw [← hv1.1]
      exact (hv1.2.2.2.2).symm
  · obtain ⟨f, heq, hflen⟩ := td_stride_spec P2 pxo2 hv2 (by omega)
    have hrs2 : 2 ≤ pxo2.rs.length := hv2.2.1
    refine ⟨_, heq, ?_, ?_⟩
    · simp only [List.length_map]
      exact hflen.symm
    · show f.length = lastD (newRowSplits pxo2.rs P2.stride)
      rw [hflen]
      exact fps_length_eq pxo2.point pxo2.rs P2.stride hrs2
  · have hv' : pxoValid ⟨pxo3.point,
        pxo3.feat.map (fun r => reluRow (affineRow PB.bn1 (linearNB PB.lin1 r))),
        pxo3.rs⟩ := by
      refine ⟨?_, ?_⟩
      · simp only [List.length_map]
        exact hv3.1
      · exact hv3.2
    obtain ⟨tout, htf, htlen, _⟩ := transformer_shape PB.tp ⟨pxo3.point,
      pxo3.feat.map (fun r => reluRow (affineRow PB.bn1 (linearNB PB.lin1 r))),
      pxo3.rs⟩ hv' hvwf hlp2wf hs hdvd hc
    have htlen' : tout.length = pxo3.feat.length := by
      simpa using htlen
    refine ⟨⟨pxo3.point, (List.zipWith (fun r idr => List.zipWith (· + ·) r idr)
        ((tout.map (fun r => reluRow (affineRow PB.bn2 r))).map
          (fun r => affineRow PB.bn3 (linearNB PB.lin3 r))) pxo3.feat).map
        reluRow, pxo3.rs⟩, ?_, ?_, ?_⟩
    · unfold bottleneckForward
      rw [htf]
    · simp only [List.length_map, List.length_zipWith, htlen']
      have := hv3.1
      omega
    · simp only [List.length_map, List.length_zipWith, htlen']
      have ha := hv3.1
      have hb := hv3.2.2.2.2
      omega

/-- Witness for C2 at concrete instances of all three components. -/
theorem pxo_invariant_components_w :
    (∃ p1, tdForward ⟨1, 1, [[1]], ⟨[1], [0]⟩⟩
        ⟨[(0, 0, 0)], [[2]], [0, 1]⟩ = some p1 ∧
      p1.point.length = p1.feat.length ∧ p1.feat.length = lastD p1.rs) ∧
    (∃ p2, tdForward ⟨2, 2, [[1, 0, 0, 0]], ⟨[1], [0]⟩⟩
        ⟨[(0, 0, 0), (1, 0, 0), (2, 0, 0), (5, 0, 0), (6, 0, 0)],
          [[1], [2], [3], [4], [5]], [0, 3, 5]⟩ = some p2 ∧
      p2.point.length = p2.feat.length ∧ p2.feat.length = lastD p2.rs) ∧
    (∃ p3, bottleneckForward
        ⟨⟨2, 2, 1, ⟨[[1, 0], [0, 1]], [0, 0]⟩, ⟨[[1, 0], [0, 1]], [0, 0]⟩,
          ⟨[[1, 0], [0, 1]], [0, 0]⟩,
          ⟨[[1, 0, 0], [0, 1, 0], [0, 0, 1]], [0, 0, 0]⟩,
          ⟨[1, 1, 1], [0, 0, 0]⟩, ⟨[[1, 0, 0], [0, 1, 0]], [0, 0]⟩,
          ⟨[1, 1], [0, 0]⟩, ⟨[[1, 0]], [0]⟩, ⟨[1], [0]⟩,
          ⟨[[1]], [0]⟩, fun x => 1⟩,
          [[1, 0], [0, 1]], ⟨[1, 1], [0, 0]⟩, ⟨[1, 1], [0, 0]⟩,
          [[1, 0], [0, 1]], ⟨[1, 1], [0, 0]⟩⟩
        ⟨[(0, 0, 0)], [[5, 7]], [0, 1]⟩ = some p3 ∧
      p3.point.length = p3.feat.length ∧ p3.feat.length = lastD p3.rs) := by
  have h := pxo_invariant_components ⟨1, 1, [[1]], ⟨[1], [0]⟩⟩
    ⟨2, 2, [[1, 0, 0, 0]], ⟨[1], [0]⟩⟩
    ⟨⟨2, 2, 1, ⟨[[1, 0], [0, 1]], [0, 0]⟩, ⟨[[1, 0], [0, 1]], [0, 0]⟩,
      ⟨[[1, 0], [0, 1]], [0, 0]⟩,
      ⟨[[1, 0, 0], [0, 1, 0], [0, 0, 1]], [0, 0, 0]⟩,
      ⟨[1, 1, 1], [0, 0, 0]⟩, ⟨[[1, 0, 0], [0, 1, 0]], [0, 0]⟩,
      ⟨[1, 1], [0, 0]⟩, ⟨[[1, 0]], [0]⟩, ⟨[1], [0]⟩,
      ⟨[[1]], [0]⟩, fun x => 1⟩,
      [[1, 0], [0, 1]], ⟨[1, 1], [0, 0]⟩, ⟨[1, 1], [0, 0]⟩,
      [[1, 0], [0, 1]], ⟨[1, 1], [0, 0]⟩⟩
    ⟨[(0, 0, 0)], [[2]], [0, 1]⟩
    ⟨[(0, 0, 0), (1, 0, 0), (2, 0, 0), (5, 0, 0), (6, 0, 0)],
      [[1], [2], [3], [4], [5]], [0, 3, 5]⟩
    ⟨[(0, 0, 0)], [[5, 7]], [0, 1]⟩
    (by decide) (by decide) (by decide) (by decide) (by decide) (by decide)
    (by decide) (by decide) (by decide) (by decide)
  exact h

end PT
